import Mathlib

/-!
# Verification of charm metadata decoding, validation and re-encoding

A shallow embedding of `meta.go` from the charm package: the dynamic YAML
value model, the schema-coercion combinators it relies on, the
metadata-specific coercers (`ifaceExpC`, `storageCountC`), the decoder
(`ReadMeta`), the validator (`Meta.Check`), and the encoder
(`Meta.GetYAML` / `marshaledRelation.GetYAML`).

Conventions of the embedding:
* Go `string`-backed enum types (`RelationRole`, `RelationScope`,
  `StorageType`) are embedded as `String`, exactly as in the source, with
  the source's named constants.
* Go `error` results become `Except String` / `Option String` (an
  `Option String` result is `some msg` on error, `none` on success).
  Go panics on type assertions are modelled as `Option.none` in the
  extraction helpers and surface as a distinguished error in `readMeta`.
* Go maps are embedded as association lists (`List (String × _)`) with
  Go map-write semantics (`insertA`: replace if present, else append).
  Iteration is in list order; Go's map iteration order is unspecified, so
  the embedding is one deterministic refinement of it.
* Go `nil` slices versus non-nil empty slices matter only for
  `Storage.Filesystem` (the validator tests `!= nil`), which is therefore
  embedded as `Option (List Filesystem)`; other slices and maps are
  embedded as plain lists.
* The external collaborators (the `IsValidSeries` predicate and the hook
  name tables from the `hooks` package) are passed as parameters.
-/

namespace Charm

/-- Dynamic value: the untyped tree produced by the YAML parser and passed
through the schema coercers (`interface{}` in the source).  `pair` embeds
the Go `[2]int` value produced by `storageCountC.Coerce`. -/
inductive V where
  | null
  | bool (b : Bool)
  | int (n : Int)
  | str (s : String)
  | list (xs : List V)
  | map (kvs : List (String × V))
  | pair (m n : Int)
  deriving Repr, Inhabited

/-- First-match lookup in an association list (Go map read). -/
def lookupA {α : Type} : List (String × α) → String → Option α
  | [], _ => none
  | (k, v) :: rest, k' => if k == k' then some v else lookupA rest k'

/-- Go map write: replace the entry if the key is present, else append. -/
def insertA {α : Type} : List (String × α) → String → α → List (String × α)
  | [], k, v => [(k, v)]
  | (k', v') :: rest, k, v =>
    if k' == k then (k', v) :: rest else (k', v') :: insertA rest k v

/-- Go map read defaulting to `nil` (`m[k]` on a missing key): absent keys
read as `V.null`. -/
def mGet (m : List (String × V)) (k : String) : V :=
  (lookupA m k).getD V.null

/-- `ScopeGlobal` from the source. -/
def ScopeGlobal : String := "global"

/-- `ScopeContainer` from the source. -/
def ScopeContainer : String := "container"

/-- `RoleProvider` from the source. -/
def RoleProvider : String := "provider"

/-- `RoleRequirer` from the source. -/
def RoleRequirer : String := "requirer"

/-- `RolePeer` from the source. -/
def RolePeer : String := "peer"

/-- `StorageBlock` from the source. -/
def StorageBlock : String := "block"

/-- `StorageFilesystem` from the source. -/
def StorageFilesystem : String := "filesystem"

/-- `Filesystem` struct from the source.  The Go field `Type` is named
`Type_` because `Type` is a Lean keyword. -/
structure Filesystem where
  Type_ : String
  MkfsOptions : List String
  MountOptions : List String
  deriving Repr, DecidableEq, Inhabited

/-- `Storage` struct from the source.  `Filesystem` is `Option` to keep
the Go distinction between a nil slice and a present (possibly empty)
slice, which `Meta.Check` tests with `!= nil`. -/
structure Storage where
  Name : String
  Type_ : String
  Shared : Bool
  ReadOnly : Bool
  Persistent : Bool
  CountMin : Int
  CountMax : Int
  Location : String
  Filesystem : Option (List Filesystem)
  deriving Repr, DecidableEq, Inhabited

/-- `Relation` struct from the source. -/
structure Relation where
  Name : String
  Role : String
  Interface : String
  Optional : Bool
  Limit : Int
  Scope : String
  deriving Repr, DecidableEq, Inhabited

/-- `Relation.IsImplicit` from the source. -/
def Relation.IsImplicit (r : Relation) : Bool :=
  r.Name == "juju-info" && r.Interface == "juju-info" && r.Role == RoleProvider

/-- `Meta` struct from the source. -/
structure Meta where
  Name : String
  Summary : String
  Description : String
  Subordinate : Bool
  Provides : List (String × Relation)
  Requires : List (String × Relation)
  Peers : List (String × Relation)
  Format : Int
  OldRevision : Int
  Categories : List String
  Tags : List String
  Series : String
  Storage : List (String × Storage)
  deriving Repr, DecidableEq, Inhabited

/-- `Relation.ImplementedBy` from the source.  The `Charm` collaborator is
represented by its `Meta` record (the method reads nothing else from it);
the `panic` branches on an unknown role or scope are modelled as `none`. -/
def Relation.ImplementedBy (r : Relation) (chMeta : Meta) : Option Bool :=
  if r.IsImplicit then some true
  else
    match
      (if r.Role == RoleProvider then some chMeta.Provides
       else if r.Role == RoleRequirer then some chMeta.Requires
       else if r.Role == RolePeer then some chMeta.Peers
       else none) with
    | none => none
    | some m =>
      match lookupA m r.Name with
      | none => some false
      | some rel =>
        if rel.Interface == r.Interface then
          if r.Scope == ScopeGlobal then some (!(rel.Scope == ScopeContainer))
          else if r.Scope == ScopeContainer then some true
          else none
        else some false

/-- `reservedName` from the source.  The Go prefix test is embedded on
the character lists. -/
def reservedName (name : String) : Bool :=
  name == "juju" || List.isPrefixOf "juju-".data name.data

/-- Rendering of Go's `%q` verb for the strings appearing in error
messages (escaping of special characters inside the name is not
modelled). -/
def goQuote (s : String) : String := "\"" ++ s ++ "\""

/-- The `checkRelations` closure inside `Meta.Check`, recursing over one
relation mapping.  `names` is the captured duplicate-detection set; on
success the updated set is returned. -/
def checkRelationsList (meta : Meta) (role : String) :
    List String → List (String × Relation) → Except String (List String)
  | names, [] => .ok names
  | names, (name, rel) :: rest =>
    if !(rel.Name == name) then
      .error ("charm " ++ goQuote meta.Name ++ " has mismatched relation name " ++
        goQuote rel.Name ++ "; expected " ++ goQuote name)
    else if !(rel.Role == role) then
      .error ("charm " ++ goQuote meta.Name ++ " has mismatched role " ++
        goQuote rel.Role ++ "; expected " ++ goQuote role)
    else if (!meta.Subordinate || !(role == RoleRequirer) ||
        !(rel.Scope == ScopeContainer)) && reservedName name then
      .error ("charm " ++ goQuote meta.Name ++ " using a reserved relation name: " ++
        goQuote name)
    else if !(role == RoleRequirer) && reservedName rel.Interface then
      .error ("charm " ++ goQuote meta.Name ++ " relation " ++ goQuote name ++
        " using a reserved interface: " ++ goQuote rel.Interface)
    else if names.contains name then
      .error ("charm " ++ goQuote meta.Name ++ " using a duplicated relation name: " ++
        goQuote name)
    else checkRelationsList meta role (name :: names) rest

/-- The three `checkRelations` calls of `Meta.Check`, threading the shared
`names` set through provides, requires and peers in source order (an error
from any call is returned at once, like the Go `if err != nil` returns). -/
def relationPhases (meta : Meta) : Except String (List String) :=
  match checkRelationsList meta RoleProvider [] meta.Provides with
  | .error e => .error e
  | .ok names =>
    match checkRelationsList meta RoleRequirer names meta.Requires with
    | .error e => .error e
    | .ok names => checkRelationsList meta RolePeer names meta.Peers

/-- The storage loop at the end of `Meta.Check`, threading its own
duplicate-detection `names` set. -/
def checkStorageList (meta : Meta) :
    List String → List (String × Storage) → Option String
  | _, [] => none
  | names, (name, store) :: rest =>
    if !(store.Location == "") && !(store.Type_ == StorageFilesystem) then
      some ("charm " ++ goQuote meta.Name ++ " storage " ++ goQuote name ++
        ": location may not be specified for \"type: " ++ store.Type_ ++ "\"")
    else if store.Filesystem.isSome && !(store.Type_ == StorageFilesystem) then
      some ("charm " ++ goQuote meta.Name ++ " storage " ++ goQuote name ++
        ": filesystem may not be specified for \"type: " ++ store.Type_ ++ "\"")
    else if store.Type_ == "" then
      some ("charm " ++ goQuote meta.Name ++ " storage " ++ goQuote name ++
        ": type must be specified")
    else if store.CountMin < 0 then
      some ("charm " ++ goQuote meta.Name ++ " storage " ++ goQuote name ++
        ": invalid minimum count " ++ toString store.CountMin)
    else if store.CountMax == 0 || store.CountMax < -1 then
      some ("charm " ++ goQuote meta.Name ++ " storage " ++ goQuote name ++
        ": invalid maximum count " ++ toString store.CountMax)
    else if names.contains name then
      some ("charm " ++ goQuote meta.Name ++ " storage " ++ goQuote name ++
        ": duplicated storage name")
    else checkStorageList meta (name :: names) rest

/-- `Meta.Check` from the source.  Returns `some errorMessage` on failure
and `none` on success.  `isValidSeries` is the external series-validity
collaborator (`IsValidSeries` lives outside this file's source), passed as
a parameter. -/
def Meta.Check (meta : Meta) (isValidSeries : String → Bool) : Option String :=
  match relationPhases meta with
  | .error e => some e
  | .ok _ =>
    if meta.Subordinate && !(meta.Requires.any fun p => p.2.Scope == ScopeContainer) then
      some ("subordinate charm " ++ goQuote meta.Name ++
        " lacks \"requires\" relation with container scope")
    else if !(meta.Series == "") && !(isValidSeries meta.Series) then
      some ("charm " ++ goQuote meta.Name ++ " declares invalid series: " ++
        goQuote meta.Series)
    else checkStorageList meta [] meta.Storage

/-- `generateRelationHooks` from the source.  `relationHooks` is the hook
name table from the external `hooks` collaborator; the Go map write on
`allHooks` is `insertA`. -/
def generateRelationHooks (relName : String) (relationHooks : List String)
    (allHooks : List (String × Bool)) : List (String × Bool) :=
  relationHooks.foldl
    (fun acc hookName => insertA acc (relName ++ "-" ++ hookName) true) allHooks

/-- `Meta.Hooks` from the source.  `unitHooks` and `relationHooks` are the
hook name tables from the external `hooks` collaborator. -/
def Meta.Hooks (m : Meta) (unitHooks relationHooks : List String) :
    List (String × Bool) :=
  let allHooks : List (String × Bool) := []
  let allHooks := unitHooks.foldl (fun acc hookName => insertA acc hookName true) allHooks
  let allHooks := m.Provides.foldl
    (fun acc p => generateRelationHooks p.1 relationHooks acc) allHooks
  let allHooks := m.Requires.foldl
    (fun acc p => generateRelationHooks p.1 relationHooks acc) allHooks
  m.Peers.foldl (fun acc p => generateRelationHooks p.1 relationHooks acc) allHooks

/-! ## Schema-coercion combinators

The generic combinators come from the external `github.com/juju/schema`
collaborator package.  Modelled from the spec: a checker takes a value and
a path and returns a coerced value or a structured error; `OneOf` tries
sub-checkers left to right and returns the last failure when all fail;
`FieldMap` requires a map, coerces declared fields, fills concrete
defaults, drops omitted absent fields, errors on a missing mandatory field
and on unknown input keys; `List` and `StringMap` map a checker over the
elements/values; primitive checkers accept exactly their scalar kind. -/

/-- A schema checker (`schema.Checker.Coerce` shape). -/
abbrev Checker := V → List String → Except String V

/-- Element-wise traversal in `Except`, stopping at the first error (the
Go loops of `schema.List`/`schema.StringMap`). -/
def mapME {α β : Type} (f : α → Except String β) : List α → Except String (List β)
  | [] => .ok []
  | x :: xs =>
    match f x with
    | .error e => .error e
    | .ok y => (mapME f xs).map (fun ys => y :: ys)

/-- Element-wise traversal in `Option` (extraction loops whose element
failures are Go panics). -/
def mapMO {α β : Type} (f : α → Option β) : List α → Option (List β)
  | [] => some []
  | x :: xs =>
    match f x with
    | none => none
    | some y => (mapMO f xs).map (fun ys => y :: ys)

/-- Path rendering for error messages (`strings.Join(path, "")`). -/
def pathStr (path : List String) : String := String.intercalate "" path

/-- Modelled from the spec: `schema.String`. -/
def stringC : Checker := fun v path =>
  match v with
  | .str s => .ok (.str s)
  | _ => .error (pathStr path ++ ": expected string")

/-- Modelled from the spec: `schema.Int`. -/
def intC : Checker := fun v path =>
  match v with
  | .int n => .ok (.int n)
  | _ => .error (pathStr path ++ ": expected int")

/-- Modelled from the spec: `schema.Bool`. -/
def boolC : Checker := fun v path =>
  match v with
  | .bool b => .ok (.bool b)
  | _ => .error (pathStr path ++ ": expected bool")

/-- Scalar value equality: the `reflect.DeepEqual` comparison performed by
`schema.Const`, restricted to the scalar constants the schemas pass to it
(`nil` and strings); composite values never appear as `Const` arguments. -/
def vEqScalar (a b : V) : Bool :=
  match a, b with
  | .null, .null => true
  | .bool x, .bool y => x == y
  | .int x, .int y => x == y
  | .str x, .str y => x == y
  | .pair x y, .pair z w => x == z && y == w
  | _, _ => false

/-- Modelled from the spec: `schema.Const x`. -/
def constC (x : V) : Checker := fun v path =>
  if vEqScalar v x then .ok v else .error (pathStr path ++ ": unexpected value")

/-- Modelled from the spec: `schema.OneOf`, first success, else the last
failure (a single checker's failure is its own last failure). -/
def oneOf : List Checker → Checker
  | [] => fun _ path => .error (pathStr path ++ ": unexpected value")
  | [c] => c
  | c :: rest => fun v path =>
    match c v path with
    | .ok w => .ok w
    | .error _ => oneOf rest v path

/-- Modelled from the spec: `schema.List c`. -/
def listC (c : Checker) : Checker := fun v path =>
  match v with
  | .list xs => (mapME (fun x => c x path) xs).map .list
  | _ => .error (pathStr path ++ ": expected list")

/-- Modelled from the spec: `schema.StringMap c` (keys are strings by
construction of `V`). -/
def stringMapC (c : Checker) : Checker := fun v path =>
  match v with
  | .map kvs =>
    (mapME (fun p => (c p.2 (path ++ [p.1])).map (fun w => (p.1, w))) kvs).map .map
  | _ => .error (pathStr path ++ ": expected map")

/-- Defaulting behaviour of one `schema.FieldMap` field: mandatory (no
entry in `schema.Defaults`), omitted (`schema.Omit`), or a concrete
default value. -/
inductive FDefault where
  | mandatory
  | omitted
  | defVal (v : V)
  deriving Repr

/-- Modelled from the spec: the per-field loop of `schema.FieldMap` —
coerce each declared field found in the input, fill concrete defaults,
skip omitted absent fields, fail on missing mandatory fields. -/
def coerceFields :
    List (String × Checker × FDefault) → List (String × V) → List String →
      Except String (List (String × V))
  | [], _, _ => .ok []
  | (k, c, d) :: rest, kvs, path =>
    match lookupA kvs k with
    | some v =>
      match c v (path ++ [k]) with
      | .error e => .error e
      | .ok w =>
        match coerceFields rest kvs path with
        | .error e => .error e
        | .ok out => .ok ((k, w) :: out)
    | none =>
      match d with
      | .mandatory => .error (pathStr (path ++ [k]) ++ ": expected value, got nothing")
      | .omitted => coerceFields rest kvs path
      | .defVal dv =>
        match coerceFields rest kvs path with
        | .error e => .error e
        | .ok out => .ok ((k, dv) :: out)

/-- Modelled from the spec: `schema.FieldMap(fields, defaults)` — the
input must be a map, unknown input keys are an error, then the fields are
processed by `coerceFields`. -/
def fieldMapC (fields : List (String × Checker × FDefault)) : Checker := fun v path =>
  match v with
  | .map kvs =>
    if kvs.all (fun p => fields.any (fun f => f.1 == p.1)) then
      (coerceFields fields kvs path).map .map
    else .error (pathStr path ++ ": unknown field")
  | _ => .error (pathStr path ++ ": expected map")

/-! ## Domain-specific coercers and schemas (from the source) -/

/-- The field list of `ifaceSchema` from the source, in source order. -/
def ifaceFields : List (String × Checker × FDefault) :=
  [("interface", stringC, .mandatory),
   ("limit", oneOf [constC .null, intC], .mandatory),
   ("scope", oneOf [constC (.str ScopeGlobal), constC (.str ScopeContainer)],
     .defVal (.str ScopeGlobal)),
   ("optional", boolC, .defVal (.bool false))]

/-- `ifaceExpC.Coerce` from the source: a bare string expands to the full
relation form with the caller-supplied `limit` default; a map gets `limit`
filled when absent and is then checked against `ifaceSchema`.  The
`stringC`/`mapC` composition is specialized on the shape of `v`. -/
def ifaceExpCoerce (limit : V) : Checker := fun v path =>
  match v with
  | .str s =>
    .ok (.map [("interface", .str s), ("limit", limit),
      ("optional", .bool false), ("scope", .str ScopeGlobal)])
  | .map kvs =>
    let kvs := if (lookupA kvs "limit").isSome then kvs else insertA kvs "limit" limit
    fieldMapC ifaceFields (.map kvs) path
  | _ => .error (pathStr path ++ ": expected string or map")

/-- `strconv.Atoi` on an all-digit numeral (64-bit overflow on huge digit
strings is not modelled). -/
def digitsToNat (ds : List Char) : Nat :=
  ds.foldl (fun n c => n * 10 + (c.toNat - 48)) 0

/-- `storageCountC.Coerce` from the source: a bare integer `m > 0` becomes
the placeholder pair `(-1, m)`; a string matching `storageCountRE`
(`^([0-9]+)-([0-9]*)$`) becomes `(m, n)` with an empty right side meaning
`n = -1`.  The anchored regular expression is decided directly on the
character list: it matches exactly when the maximal digit prefix is
nonempty and is followed by `-` and a (possibly empty) run of digits
reaching the end.  The quoting of the three pattern forms inside the Go
mismatch message is not reproduced. -/
def storageCountCoerce : Checker := fun v path =>
  match v with
  | .int m =>
    if m ≤ 0 then
      .error (pathStr (path.drop 1) ++ ": invalid count " ++ toString m)
    else .ok (.pair (-1) m)
  | .str s =>
    match s.data.takeWhile Char.isDigit, s.data.dropWhile Char.isDigit with
    | a :: as, '-' :: b =>
      if b.all Char.isDigit then
        .ok (.pair (digitsToNat (a :: as))
          (if b.isEmpty then -1 else (digitsToNat b : Int)))
      else
        .error (pathStr (path.drop 1) ++ ": value " ++ goQuote s ++
          " does not match m, m-n, or m-")
    | _, _ =>
      .error (pathStr (path.drop 1) ++ ": value " ++ goQuote s ++
        " does not match m, m-n, or m-")
  | _ => .error (pathStr path ++ ": expected int or string")

/-- The field list of `filesystemSchema` from the source. -/
def filesystemFields : List (String × Checker × FDefault) :=
  [("type", stringC, .mandatory),
   ("mkfs-options", listC stringC, .omitted),
   ("options", listC stringC, .omitted)]

/-- The field list of `storageSchema` from the source. -/
def storageFields : List (String × Checker × FDefault) :=
  [("required", boolC, .defVal (.bool false)),
   ("shared", boolC, .defVal (.bool false)),
   ("read-only", boolC, .defVal (.bool false)),
   ("persistent", boolC, .defVal (.bool false)),
   ("count", storageCountCoerce, .omitted),
   ("location", stringC, .omitted),
   ("type", oneOf [constC (.str StorageBlock), constC (.str StorageFilesystem)],
     .mandatory),
   ("filesystem", listC (oneOf [stringC, fieldMapC filesystemFields]), .omitted)]

/-- The field list of `charmSchema` from the source, in source order. -/
def charmFields : List (String × Checker × FDefault) :=
  [("name", stringC, .mandatory),
   ("summary", stringC, .mandatory),
   ("description", stringC, .mandatory),
   ("peers", stringMapC (ifaceExpCoerce (.int 1)), .omitted),
   ("provides", stringMapC (ifaceExpCoerce .null), .omitted),
   ("requires", stringMapC (ifaceExpCoerce (.int 1)), .omitted),
   ("revision", intC, .omitted),
   ("format", intC, .defVal (.int 1)),
   ("subordinate", boolC, .omitted),
   ("categories", listC stringC, .omitted),
   ("tags", listC stringC, .omitted),
   ("series", stringC, .omitted),
   ("storage", stringMapC (fieldMapC storageFields), .omitted)]

/-- `charmSchema.Coerce` from the source. -/
def charmSchemaCoerce : Checker := fieldMapC charmFields

/-! ## Decoder: typed extraction (`ReadMeta` and its helpers)

Go type-assertion panics during extraction are modelled as `Option.none`
(the schema has already guaranteed the shapes on every reachable path). -/

/-- `parseStringList` from the source: `nil` input gives a nil (here:
empty) list, a list must consist of strings. -/
def parseStringList (list : V) : Option (List String) :=
  match list with
  | .null => some []
  | .list xs => mapMO (fun e => match e with | .str s => some s | _ => none) xs
  | _ => none

/-- The `limit` step of the `parseRelations` loop body: a non-nil limit
must be an integer (assertion panic otherwise) and overwrites the zero
default. -/
def parseRelLimit (relMap : List (String × V)) (rel : Relation) : Option Relation :=
  match mGet relMap "limit" with
  | .null => some rel
  | .int n => some { rel with Limit := n }
  | _ => none

/-- The body of the `parseRelations` loop from the source: builds one
`Relation` from a coerced relation map, stamping the map key as its name
and the mapping's role. -/
def parseRelationEntry (role : String) (name : String) (rel : V) : Option Relation :=
  match rel with
  | .map relMap =>
    match mGet relMap "interface" with
    | .str iface =>
      match mGet relMap "optional" with
      | .bool opt =>
        match mGet relMap "scope" with
        | .null =>
          parseRelLimit relMap
            { Name := name, Role := role, Interface := iface, Optional := opt,
              Limit := 0, Scope := "" }
        | .str s =>
          parseRelLimit relMap
            { Name := name, Role := role, Interface := iface, Optional := opt,
              Limit := 0, Scope := s }
        | _ => none
      | _ => none
    | _ => none
  | _ => none

/-- The `parseRelations` loop from the source, accumulating Go map writes
into `acc`. -/
def parseRelFold (role : String) :
    List (String × Relation) → List (String × V) → Option (List (String × Relation))
  | acc, [] => some acc
  | acc, (name, rel) :: rest =>
    match parseRelationEntry role name rel with
    | none => none
    | some r => parseRelFold role (insertA acc name r) rest

/-- `parseRelations` from the source. -/
def parseRelations (relations : V) (role : String) :
    Option (List (String × Relation)) :=
  match relations with
  | .null => some []
  | .map kvs => parseRelFold role [] kvs
  | _ => none

/-- `parseFilesystem` from the source: `some none` models the Go `nil`
slice returned for `nil` input; elements that are neither strings nor maps
are skipped (the Go `switch` has no default case). -/
def parseFilesystemList (filesystems : V) : Option (Option (List Filesystem)) :=
  match filesystems with
  | .null => some none
  | .list xs =>
    (xs.foldlM (fun (acc : List Filesystem) (e : V) =>
      match e with
      | .str s =>
        some (acc ++ [({ Type_ := s, MkfsOptions := [], MountOptions := [] } : Filesystem)])
      | .map m => do
        let t ← match mGet m "type" with | .str s => some s | _ => none
        let mount ← parseStringList (mGet m "options")
        let mkfs ← parseStringList (mGet m "mkfs-options")
        some (acc ++ [({ Type_ := t, MkfsOptions := mkfs, MountOptions := mount } : Filesystem)])
      | _ => some acc) []).map some
  | _ => none

/-- The body of the `parseStorage` loop from the source, including the
resolution of the `(-1, max)` count placeholder against `required`. -/
def parseStorageEntry (name : String) (store : V) : Option Storage :=
  match store with
  | .map storeMap => do
    let t ← match mGet storeMap "type" with | .str s => some s | _ => none
    let sh ← match mGet storeMap "shared" with | .bool b => some b | _ => none
    let ro ← match mGet storeMap "read-only" with | .bool b => some b | _ => none
    let pe ← match mGet storeMap "persistent" with | .bool b => some b | _ => none
    let required ← match mGet storeMap "required" with | .bool b => some b | _ => none
    let cpair : Int × Int :=
      match mGet storeMap "count" with
      | .pair m n => (m, n)
      | _ => (-1, 1)
    let cmin := if cpair.1 == -1 then (if required then cpair.2 else 0) else cpair.1
    let loc := match mGet storeMap "location" with | .str s => s | _ => ""
    let fs ← parseFilesystemList (mGet storeMap "filesystem")
    some { Name := name, Type_ := t, Shared := sh, ReadOnly := ro, Persistent := pe,
           CountMin := cmin, CountMax := cpair.2, Location := loc, Filesystem := fs }
  | _ => none

/-- The `parseStorage` loop from the source, accumulating Go map writes
into `acc`. -/
def parseStorFold :
    List (String × Storage) → List (String × V) → Option (List (String × Storage))
  | acc, [] => some acc
  | acc, (name, store) :: rest =>
    match parseStorageEntry name store with
    | none => none
    | some s => parseStorFold (insertA acc name s) rest

/-- `parseStorage` from the source. -/
def parseStorage (stores : V) : Option (List (String × Storage)) :=
  match stores with
  | .null => some []
  | .map kvs => parseStorFold [] kvs
  | _ => none

/-- The `subordinate` extraction step of `ReadMeta`: absent (nil) means
`false`, otherwise the value must be a boolean. -/
def extractSubordinate : V → Option Bool
  | .null => some false
  | .bool b => some b
  | _ => none

/-- The obsolete `revision` extraction step of `ReadMeta`. -/
def extractOldRevision : V → Option Int
  | .null => some 0
  | .int n => some n
  | _ => none

/-- The `series` extraction step of `ReadMeta` (present-and-non-nil must
be a string). -/
def extractSeries : Option V → Option String
  | none => some ""
  | some V.null => some ""
  | some (.str s) => some s
  | some _ => none

/-- The typed-extraction pass of `ReadMeta` (everything between the schema
coercion and the `meta.Check()` call), in source order. -/
def extractMeta (m : List (String × V)) : Option Meta :=
  match mGet m "name" with
  | .str name =>
    match mGet m "summary" with
    | .str summary =>
      match mGet m "description" with
      | .str description =>
        match parseRelations (mGet m "provides") RoleProvider with
        | some provides =>
          match parseRelations (mGet m "requires") RoleRequirer with
          | some requires =>
            match parseRelations (mGet m "peers") RolePeer with
            | some peers =>
              match mGet m "format" with
              | .int format =>
                match parseStringList (mGet m "categories") with
                | some categories =>
                  match parseStringList (mGet m "tags") with
                  | some tags =>
                    match extractSubordinate (mGet m "subordinate") with
                    | some subordinate =>
                      match extractOldRevision (mGet m "revision") with
                      | some oldRevision =>
                        match extractSeries (lookupA m "series") with
                        | some series =>
                          match parseStorage (mGet m "storage") with
                          | some storage =>
                            some {
                              Name := name, Summary := summary, Description := description, Subordinate := subordinate, Provides := provides, Requires := requires, Peers := peers, Format := format, OldRevision := oldRevision, Categories := categories, Tags := tags, Series := series, Storage := storage }
                          | none => none
                        | none => none
                      | none => none
                    | none => none
                  | none => none
                | none => none
              | _ => none
            | none => none
          | none => none
        | none => none
      | _ => none
    | _ => none
  | _ => none

/-- `ReadMeta` from the source, minus the byte-stream read and the YAML
parse performed by external collaborators: the input is the untyped value
tree; the output is the validated record or the error `ReadMeta` returns.
Extraction panics surface as a distinguished "panic:" error. -/
def readMeta (isValidSeries : String → Bool) (raw : V) : Except String Meta :=
  match charmSchemaCoerce raw [] with
  | .error e => .error ("metadata: " ++ e)
  | .ok (.map m) =>
    match extractMeta m with
    | none => .error "panic: internal type assertion failure"
    | some meta =>
      match meta.Check isValidSeries with
      | some e => .error e
      | none => .ok meta
  | .ok _ => .error "panic: internal type assertion failure"

/-! ## Encoder (`Meta.GetYAML`, `marshaledRelation.GetYAML`)

The `yaml` struct marshalling of the anonymous structs in the source is
embedded directly as a `V` tree: a field tagged `omitempty` is dropped
when its value is the zero value of its type (empty map/slice/string,
`false`, nil pointer). -/

/-- `marshaledRelation.GetYAML` from the source: collapse to the bare
interface string when all attributes are at their role-specific defaults,
else emit the full map with only the non-default fields.  Note the `scope`
field is emitted only when it is neither `ScopeGlobal` nor empty (the
marshalled struct's zero `Scope` is dropped by `omitempty`). -/
def marshaledRelationGetYAML (r : Relation) : V :=
  let noLimit : Int := if r.Role == RoleProvider then 0 else 1
  if !r.Optional && r.Limit == noLimit && r.Scope == ScopeGlobal then
    .str r.Interface
  else
    .map ([("interface", .str r.Interface)] ++
      (if !(r.Limit == noLimit) then [("limit", .int r.Limit)] else []) ++
      (if r.Optional then [("optional", .bool true)] else []) ++
      (if !(r.Scope == ScopeGlobal) && !(r.Scope == "") then
        [("scope", .str r.Scope)] else []))

/-- The `marshaledRelations` helper inside `Meta.GetYAML`. -/
def relationsGetYAML (rs : List (String × Relation)) : List (String × V) :=
  rs.map (fun p => (p.1, marshaledRelationGetYAML p.2))

/-- The entries of the document map `Meta.GetYAML` emits, in the marshal
order of the struct fields, each `omitempty` field present only when
non-zero. -/
def metaGetYAMLentries (m : Meta) : List (String × V) :=
  ("name", .str m.Name) :: ("summary", .str m.Summary) ::
    ("description", .str m.Description) ::
    ((if m.Provides.isEmpty then [] else
      [("provides", .map (relationsGetYAML m.Provides))]) ++
    ((if m.Requires.isEmpty then [] else
      [("requires", .map (relationsGetYAML m.Requires))]) ++
    ((if m.Peers.isEmpty then [] else
      [("peers", .map (relationsGetYAML m.Peers))]) ++
    ((if m.Categories.isEmpty then [] else
      [("categories", .list (m.Categories.map .str))]) ++
    ((if m.Tags.isEmpty then [] else
      [("tags", .list (m.Tags.map .str))]) ++
    ((if m.Subordinate then [("subordinate", .bool true)] else []) ++
    (if m.Series == "" then [] else [("series", .str m.Series)])))))))

/-- `Meta.GetYAML` from the source: the marshalled document tree.  Note
that `Format`, `OldRevision` and `Storage` have no corresponding field in
the marshalled struct and are therefore never emitted. -/
def Meta.GetYAML (m : Meta) : V := .map (metaGetYAMLentries m)

/-! ## Concrete records and documents used by the theorems below -/

/-- A minimal valid record: only the mandatory fields are non-zero. -/
def emptyMeta : Meta :=
  { Name := "test", Summary := "s", Description := "d", Subordinate := false,
    Provides := [], Requires := [], Peers := [], Format := 1, OldRevision := 0,
    Categories := [], Tags := [], Series := "", Storage := [] }

/-- The implicit platform relation: `juju-info`/`juju-info`/provider. -/
def relImplicit : Relation :=
  { Name := "juju-info", Role := RoleProvider, Interface := "juju-info",
    Optional := false, Limit := 0, Scope := ScopeGlobal }

/-- A record declaring the implicit relation in its provides mapping. -/
def metaImplicitProvides : Meta :=
  { emptyMeta with Provides := [("juju-info", relImplicit)] }

/-- The relation produced by decoding `provides: {server: "mysql"}`. -/
def relServer : Relation :=
  { Name := "server", Role := RoleProvider, Interface := "mysql",
    Optional := false, Limit := 0, Scope := ScopeGlobal }

/-- The document `name/summary/description` plus `provides: {server: "mysql"}`. -/
def docShorthand : V :=
  .map [("name", .str "test"), ("summary", .str "s"), ("description", .str "d"),
    ("provides", .map [("server", .str "mysql")])]

/-- The record `docShorthand` decodes to. -/
def metaShorthand : Meta := { emptyMeta with Provides := [("server", relServer)] }

/-- A container-scoped requirer relation with a reserved (`juju-`) name. -/
def relReqContainer : Relation :=
  { Name := "juju-foo", Role := RoleRequirer, Interface := "iface",
    Optional := false, Limit := 1, Scope := ScopeContainer }

/-- A subordinate record whose requires mapping holds `relReqContainer`. -/
def metaSubReserved : Meta :=
  { emptyMeta with Subordinate := true, Requires := [("juju-foo", relReqContainer)] }

/-- A subordinate record with no requires relations at all. -/
def metaSubNoContainer : Meta := { emptyMeta with Subordinate := true }

/-- A requirer relation named `server` (for the duplicate-name example). -/
def relServerReq : Relation :=
  { Name := "server", Role := RoleRequirer, Interface := "mysql",
    Optional := false, Limit := 1, Scope := ScopeGlobal }

/-- A record with the name `server` in both provides and requires. -/
def metaDupName : Meta :=
  { emptyMeta with
      Provides := [("server", relServer)], Requires := [("server", relServerReq)] }

/-- A block storage entry whose filesystem list is present but empty (the
Go value is a non-nil empty slice). -/
def storeFsEmpty : Storage :=
  { Name := "data", Type_ := StorageBlock, Shared := false, ReadOnly := false,
    Persistent := false, CountMin := 0, CountMax := 1, Location := "",
    Filesystem := some [] }

/-- A record holding `storeFsEmpty`. -/
def metaFsEmpty : Meta := { emptyMeta with Storage := [("data", storeFsEmpty)] }

/-- A block storage entry with a location. -/
def storeLocBlock : Storage :=
  { Name := "data", Type_ := StorageBlock, Shared := false, ReadOnly := false,
    Persistent := false, CountMin := 0, CountMax := 1, Location := "/srv",
    Filesystem := none }

/-- A record holding `storeLocBlock`. -/
def metaLocBlock : Meta := { emptyMeta with Storage := [("data", storeLocBlock)] }

/-- `storeLocBlock` with the type flipped to filesystem. -/
def storeLocFs : Storage := { storeLocBlock with Type_ := StorageFilesystem }

/-- A record holding `storeLocFs`. -/
def metaLocFs : Meta := { emptyMeta with Storage := [("data", storeLocFs)] }

/-- A plain block storage entry as decoded with no count and
`required=false`. -/
def storeBlockPlain : Storage :=
  { Name := "data", Type_ := StorageBlock, Shared := false, ReadOnly := false,
    Persistent := false, CountMin := 0, CountMax := 1, Location := "",
    Filesystem := none }

/-- A document with one block storage entry whose storage map carries the
extra fields `extra` (used to exercise the count coercion). -/
def storageDoc (extra : List (String × V)) : V :=
  .map [("name", .str "test"), ("summary", .str "s"), ("description", .str "d"),
    ("storage", .map [("data", .map ([("type", .str "block")] ++ extra))])]

/-- Projection of the decoded `data` storage entry's count range. -/
def storageCounts (m : Meta) : Option (Int × Int) :=
  (lookupA m.Storage "data").map (fun s => (s.CountMin, s.CountMax))

/-- A document with a non-default format, an obsolete revision and a
storage section — all three are dropped by the encoder. -/
def docFormat2 : V :=
  .map [("name", .str "test"), ("summary", .str "s"), ("description", .str "d"),
    ("format", .int 2), ("revision", .int 7),
    ("storage", .map [("data", .map [("type", .str "block")])])]

/-- The record `docFormat2` decodes to. -/
def metaFormat2 : Meta :=
  { emptyMeta with
      Format := 2, OldRevision := 7, Storage := [("data", storeBlockPlain)] }

/-- Replace the interface of every requires entry of a record, leaving
everything else unchanged (used to state that validation never inspects
requirer interfaces). -/
def setRequiresIfaces (f : String → String) (meta : Meta) : Meta :=
  { meta with Requires :=
      meta.Requires.map (fun q => (q.1, { q.2 with Interface := f q.2.Interface })) }

/-- The intermediate value `charmSchema.Coerce` produces on the document
`Meta.GetYAML` emits: the three mandatory strings, the conditionally
present coerced relation mappings (`outPr`/`outRq`/`outPe`), the filled
`format` default, and the conditionally present scalar fields, in
`charmSchema` field order. -/
def charmEncodedCoerced (R : Meta) (outPr outRq outPe : List (String × V)) :
    List (String × V) :=
  ("name", .str R.Name) :: ("summary", .str R.Summary) ::
    ("description", .str R.Description) ::
    ((if R.Peers.isEmpty = false then [("peers", .map outPe)] else []) ++
    ((if R.Provides.isEmpty = false then [("provides", .map outPr)] else []) ++
    ((if R.Requires.isEmpty = false then [("requires", .map outRq)] else []) ++
    (("format", .int 1) ::
    ((if R.Subordinate = true then [("subordinate", .bool true)] else []) ++
    ((if R.Categories.isEmpty = false then
        [("categories", .list (R.Categories.map .str))] else []) ++
    ((if R.Tags.isEmpty = false then
        [("tags", .list (R.Tags.map .str))] else []) ++
    ((if (R.Series == "") = false then [("series", .str R.Series)] else []) ++
      ([] : List (String × V))))))))))

/-! ## General lemmas about the association-list embedding -/

theorem lookupA_mem {α : Type} :
    ∀ {l : List (String × α)} {k : String} {v : α}, lookupA l k = some v → (k, v) ∈ l
  | [], _, _, h => by simp [lookupA] at h
  | (k', v') :: rest, k, v, h => by
    simp only [lookupA] at h
    split at h
    · next heq =>
      cases h
      have : k' = k := by simpa [beq_iff_eq] using heq
      subst this
      exact List.mem_cons_self _ _
    · exact List.mem_cons_of_mem _ (lookupA_mem h)

theorem lookupA_insertA_self {α : Type} :
    ∀ (l : List (String × α)) (k : String) (v : α), lookupA (insertA l k v) k = some v
  | [], k, v => by simp [insertA, lookupA]
  | (k', v') :: rest, k, v => by
    simp only [insertA]
    split
    · next h =>
      simp [lookupA, h]
    · next h =>
      simp [lookupA, h, lookupA_insertA_self rest k v]

theorem lookupA_insertA_ne {α : Type} {k k' : String} (hne : k ≠ k') :
    ∀ (l : List (String × α)) (v : α), lookupA (insertA l k v) k' = lookupA l k'
  | [], v => by simp [insertA, lookupA, hne]
  | (k'', v'') :: rest, v => by
    simp only [insertA]
    split
    · next h =>
      have hk : k'' = k := by simpa [beq_iff_eq] using h
      subst hk
      simp [lookupA, hne]
    · simp [lookupA, lookupA_insertA_ne hne rest v]

theorem foldl_preserve {α β : Type} (P : β → Prop) (f : β → α → β)
    (hstep : ∀ b a, P b → P (f b a)) :
    ∀ (l : List α) (b : β), P b → P (l.foldl f b)
  | [], _, hb => hb
  | a :: l, b, hb => foldl_preserve P f hstep l (f b a) (hstep b a hb)

theorem lookupA_insertA_true {l : List (String × Bool)} {k k' : String}
    (h : lookupA l k = some true) : lookupA (insertA l k' true) k = some true := by
  by_cases hk : k' = k
  · subst hk; exact lookupA_insertA_self l k' true
  · rw [lookupA_insertA_ne hk]; exact h

theorem foldl_insertA_true_new (g : String → String) :
    ∀ (l : List String) (acc : List (String × Bool)) (x : String), x ∈ l →
      lookupA (l.foldl (fun acc y => insertA acc (g y) true) acc) (g x) = some true
  | y :: l, acc, x, hx => by
    simp only [List.foldl_cons]
    rcases List.mem_cons.1 hx with hx | hx
    · subst hx
      exact foldl_preserve (fun b => lookupA b (g x) = some true) _
        (fun b a hb => lookupA_insertA_true hb) l _ (lookupA_insertA_self acc (g x) true)
    · exact foldl_insertA_true_new g l _ x hx

theorem insertA_true_values {l : List (String × Bool)} {k : String}
    (hl : ∀ p ∈ l, p.2 = true) : ∀ p ∈ insertA l k true, p.2 = true := by
  induction l with
  | nil => simp [insertA]
  | cons q rest ih =>
    obtain ⟨k', v'⟩ := q
    simp only [insertA]
    split
    · intro p hp
      rcases List.mem_cons.1 hp with hp | hp
      · subst hp; rfl
      · exact hl p (List.mem_cons_of_mem _ hp)
    · intro p hp
      rcases List.mem_cons.1 hp with hp | hp
      · subst hp; exact hl _ (List.mem_cons_self _ _)
      · exact ih (fun q hq => hl q (List.mem_cons_of_mem _ hq)) p hp

/-! ## Lemmas about `generateRelationHooks` and `Meta.Hooks` -/

theorem generateRelationHooks_preserve {relName : String} {rh : List String}
    {acc : List (String × Bool)} {k : String} (h : lookupA acc k = some true) :
    lookupA (generateRelationHooks relName rh acc) k = some true :=
  foldl_preserve (fun b => lookupA b k = some true) _
    (fun b a hb => lookupA_insertA_true hb) rh acc h

theorem generateRelationHooks_new {relName : String} {rh : List String}
    {acc : List (String × Bool)} {H : String} (hH : H ∈ rh) :
    lookupA (generateRelationHooks relName rh acc) (relName ++ "-" ++ H) = some true :=
  foldl_insertA_true_new (fun y => relName ++ "-" ++ y) rh acc H hH

theorem generateRelationHooks_values {relName : String} {rh : List String}
    {acc : List (String × Bool)} (h : ∀ p ∈ acc, p.2 = true) :
    ∀ p ∈ generateRelationHooks relName rh acc, p.2 = true :=
  foldl_preserve (fun b => ∀ p ∈ b, p.2 = true) _
    (fun b a hb => insertA_true_values hb) rh acc h

theorem relFold_preserve {rh : List String} {rs : List (String × Relation)}
    {acc : List (String × Bool)} {k : String} (h : lookupA acc k = some true) :
    lookupA (rs.foldl (fun acc p => generateRelationHooks p.1 rh acc) acc) k = some true :=
  foldl_preserve (fun b => lookupA b k = some true) _
    (fun b a hb => generateRelationHooks_preserve hb) rs acc h

theorem relFold_new {rh : List String} {N H : String} :
    ∀ (rs : List (String × Relation)) (acc : List (String × Bool)),
      N ∈ rs.map Prod.fst → H ∈ rh →
      lookupA (rs.foldl (fun acc p => generateRelationHooks p.1 rh acc) acc)
        (N ++ "-" ++ H) = some true
  | q :: rs, acc, hN, hH => by
    simp only [List.foldl_cons]
    rcases List.mem_cons.1 hN with hN | hN
    · subst hN
      exact relFold_preserve (generateRelationHooks_new hH)
    · exact relFold_new rs _ hN hH

theorem relFold_values {rh : List String} {rs : List (String × Relation)}
    {acc : List (String × Bool)} (h : ∀ p ∈ acc, p.2 = true) :
    ∀ p ∈ rs.foldl (fun acc p => generateRelationHooks p.1 rh acc) acc, p.2 = true :=
  foldl_preserve (fun b => ∀ p ∈ b, p.2 = true) _
    (fun b a hb => generateRelationHooks_values hb) rs acc h

/-! ## Lemmas about `Meta.Check` -/

theorem check_relationPhases {meta : Meta} {p : String → Bool}
    (h : meta.Check p = none) : ∃ ns, relationPhases meta = .ok ns := by
  unfold Meta.Check at h
  cases hp : relationPhases meta with
  | error e => rw [hp] at h; exact absurd h (by simp)
  | ok ns => exact ⟨ns, rfl⟩

theorem relationPhases_parts {meta : Meta} {ns : List String}
    (h : relationPhases meta = .ok ns) :
    ∃ n1 n2, checkRelationsList meta RoleProvider [] meta.Provides = .ok n1 ∧
      checkRelationsList meta RoleRequirer n1 meta.Requires = .ok n2 ∧
      checkRelationsList meta RolePeer n2 meta.Peers = .ok ns := by
  unfold relationPhases at h
  split at h
  · exact Except.noConfusion h
  · rename_i n1 h1
    split at h
    · exact Except.noConfusion h
    · rename_i n2 h2
      exact ⟨n1, n2, h1, h2, h⟩

/-- Every entry of a relation mapping whose `checkRelations` pass succeeded
satisfies the per-entry conditions: matching name and role, reserved name
only under the subordinate/requirer/container exemption, and no reserved
interface outside the requirer mapping. -/
theorem checkRelationsList_entry {meta : Meta} {role : String} :
    ∀ {names : List String} {src : List (String × Relation)} {names' : List String},
      checkRelationsList meta role names src = .ok names' →
      ∀ q ∈ src, q.2.Name = q.1 ∧ q.2.Role = role ∧
        ((meta.Subordinate = true ∧ role = RoleRequirer ∧ q.2.Scope = ScopeContainer) ∨
          reservedName q.1 = false) ∧
        (role = RoleRequirer ∨ reservedName q.2.Interface = false) := by
  intro names src
  induction src generalizing names with
  | nil => intro names' h q hq; simp at hq
  | cons head rest ih =>
    intro names' h q hq
    obtain ⟨name, rel⟩ := head
    rw [checkRelationsList] at h
    split_ifs at h with h1 h2 h3 h4 h5 <;> try exact Except.noConfusion h
    rcases List.mem_cons.1 hq with hq | hq
    · subst hq
      refine ⟨by simpa using h1, by simpa using h2, ?_, ?_⟩
      · by_cases hr : reservedName name
        · left
          have hA : (!meta.Subordinate || !(role == RoleRequirer) ||
              !(rel.Scope == ScopeContainer)) = false := by
            cases hA : (!meta.Subordinate || !(role == RoleRequirer) ||
                !(rel.Scope == ScopeContainer)) with
            | false => rfl
            | true => exact absurd (by simp [hA, hr]) h3
          simp only [Bool.or_eq_false_iff, Bool.not_eq_false', beq_iff_eq] at hA
          exact ⟨hA.1.1, hA.1.2, hA.2⟩
        · right
          simpa using hr
      · by_cases hrole : role = RoleRequirer
        · left; exact hrole
        · right
          cases hi : reservedName rel.Interface with
          | false => rfl
          | true => exact absurd (by simp [hi, hrole]) h4
    · exact ih h q hq

/-- The `names` set threaded through a successful `checkRelations` pass
grows by exactly the mapping's keys, and stays duplicate-free. -/
theorem checkRelationsList_names {meta : Meta} {role : String} :
    ∀ {names : List String} {src : List (String × Relation)} {names' : List String},
      checkRelationsList meta role names src = .ok names' → names.Nodup →
      names'.Nodup ∧ names' = (src.map Prod.fst).reverse ++ names := by
  intro names src
  induction src generalizing names with
  | nil =>
    intro names' h hn
    rw [checkRelationsList] at h
    cases h
    exact ⟨hn, by simp⟩
  | cons head rest ih =>
    intro names' h hn
    obtain ⟨name, rel⟩ := head
    rw [checkRelationsList] at h
    split_ifs at h with h1 h2 h3 h4 h5 <;> try exact Except.noConfusion h
    have hfresh : name ∉ names := by
      intro hmem
      exact h5 (by simpa using hmem)
    obtain ⟨hnodup, heq⟩ := ih h (List.nodup_cons.2 ⟨hfresh, hn⟩)
    exact ⟨hnodup, by simp [heq, List.append_assoc]⟩

/-- A record passing `Meta.Check` has pairwise-distinct relation names
across the three mappings combined. -/
theorem check_keys_nodup {meta : Meta} {p : String → Bool} (h : meta.Check p = none) :
    (meta.Provides.map Prod.fst ++ meta.Requires.map Prod.fst ++
      meta.Peers.map Prod.fst).Nodup := by
  obtain ⟨ns, hp⟩ := check_relationPhases h
  obtain ⟨n1, n2, hc1, hc2, hc3⟩ := relationPhases_parts hp
  obtain ⟨hn1, he1⟩ := checkRelationsList_names hc1 List.nodup_nil
  obtain ⟨hn2, he2⟩ := checkRelationsList_names hc2 hn1
  obtain ⟨hn3, he3⟩ := checkRelationsList_names hc3 hn2
  subst he1 he2 he3
  have hx : ((meta.Provides.map Prod.fst).reverse ++ []).Perm
      (meta.Provides.map Prod.fst) := by
    simpa using List.reverse_perm (meta.Provides.map Prod.fst)
  have hperm :
      ((meta.Peers.map Prod.fst).reverse ++ ((meta.Requires.map Prod.fst).reverse ++
        ((meta.Provides.map Prod.fst).reverse ++ []))).Perm
      (meta.Provides.map Prod.fst ++ meta.Requires.map Prod.fst ++
        meta.Peers.map Prod.fst) := by
    refine List.Perm.trans
      (List.Perm.append (List.reverse_perm _)
        (List.Perm.append (List.reverse_perm _) hx)) ?_
    refine List.Perm.trans List.perm_append_comm ?_
    exact List.Perm.append_right _ List.perm_append_comm
  exact hperm.nodup hn3

/-- Every entry of a storage mapping whose check loop succeeded satisfies
the per-entry storage conditions. -/
theorem checkStorageList_entry {meta : Meta} :
    ∀ {names : List String} {src : List (String × Storage)},
      checkStorageList meta names src = none →
      ∀ q ∈ src,
        (q.2.Location = "" ∨ q.2.Type_ = StorageFilesystem) ∧
        (q.2.Filesystem = none ∨ q.2.Type_ = StorageFilesystem) ∧
        q.2.Type_ ≠ "" ∧ ¬(q.2.CountMin < 0) ∧
        q.2.CountMax ≠ 0 ∧ ¬(q.2.CountMax < -1) := by
  intro names src
  induction src generalizing names with
  | nil => intro h q hq; simp at hq
  | cons head rest ih =>
    intro h q hq
    obtain ⟨name, store⟩ := head
    rw [checkStorageList] at h
    split_ifs at h with h1 h2 h3 h4 h5 h6 <;> try exact Option.noConfusion h
    rcases List.mem_cons.1 hq with hq | hq
    · subst hq
      dsimp only
      refine ⟨?_, ?_, by simpa using h3, h4, ?_, ?_⟩
      · by_cases hl : store.Location = ""
        · exact Or.inl hl
        · by_cases ht : store.Type_ = StorageFilesystem
          · exact Or.inr ht
          · exact absurd (by simp [hl, ht]) h1
      · by_cases hf : store.Filesystem = none
        · exact Or.inl hf
        · by_cases ht : store.Type_ = StorageFilesystem
          · exact Or.inr ht
          · exact absurd (by simp [Option.isSome_iff_ne_none, hf, ht]) h2
      · intro hz
        exact h5 (by simp [hz])
      · intro hlt
        exact h5 (by simp [hlt])
    · exact ih h q hq

/-- The storage check loop succeeds when every entry satisfies the
per-entry conditions and the keys are fresh and duplicate-free. -/
theorem checkStorageList_ok {meta : Meta} :
    ∀ {names : List String} {src : List (String × Storage)},
      (∀ q ∈ src,
        (q.2.Location = "" ∨ q.2.Type_ = StorageFilesystem) ∧
        (q.2.Filesystem = none ∨ q.2.Type_ = StorageFilesystem) ∧
        q.2.Type_ ≠ "" ∧ ¬(q.2.CountMin < 0) ∧
        q.2.CountMax ≠ 0 ∧ ¬(q.2.CountMax < -1)) →
      (src.map Prod.fst).Nodup → (∀ k ∈ src.map Prod.fst, k ∉ names) →
      checkStorageList meta names src = none := by
  intro names src
  induction src generalizing names with
  | nil => intro _ _ _; rfl
  | cons head rest ih =>
    intro hall hnd hfresh
    obtain ⟨name, store⟩ := head
    obtain ⟨hc1, hc2, hc3, hc4, hc5, hc6⟩ := hall _ (List.mem_cons_self _ _)
    dsimp only at hc1 hc2 hc3 hc4 hc5 hc6
    have e1 : (!(store.Location == "") && !(store.Type_ == StorageFilesystem)) = false := by
      rcases hc1 with h | h <;> simp [h]
    have e2 : (store.Filesystem.isSome && !(store.Type_ == StorageFilesystem)) = false := by
      rcases hc2 with h | h <;> simp [h]
    have e3 : (store.Type_ == "") = false := by simpa using hc3
    have e5 : (store.CountMax == 0 || decide (store.CountMax < -1)) = false := by
      simp [hc5, hc6]
    have e6 : names.contains name = false := by
      simpa using hfresh name (List.mem_cons_self name _)
    rw [List.map_cons] at hnd
    have hn1 : name ∉ rest.map Prod.fst := (List.nodup_cons.1 hnd).1
    have hn2 : (rest.map Prod.fst).Nodup := (List.nodup_cons.1 hnd).2
    rw [checkStorageList]
    simp only [e1, e2, e3, e5, e6, hc4, if_false, Bool.false_eq_true, ite_false]
    exact ih (fun q hq => hall q (List.mem_cons_of_mem _ hq)) hn2
      (fun k hk => by
        intro hmem
        rcases List.mem_cons.1 hmem with hmem | hmem
        · exact hn1 (hmem ▸ hk)
        · exact hfresh k (List.mem_cons_of_mem _ hk) hmem)

/-- `Meta.Check` succeeding means the storage loop succeeded. -/
theorem check_storage_phase {meta : Meta} {p : String → Bool}
    (h : meta.Check p = none) : checkStorageList meta [] meta.Storage = none := by
  unfold Meta.Check at h
  split at h
  · exact Option.noConfusion h
  · split_ifs at h with h1 h2
    exact h

/-- `Meta.Check` succeeds once the relation phases pass, the subordinate
and series rules hold, and the storage loop passes. -/
theorem check_eq_none_of {meta : Meta} {p : String → Bool} {names : List String}
    (hph : relationPhases meta = .ok names)
    (hsub : meta.Subordinate = false ∨
      meta.Requires.any (fun q => q.2.Scope == ScopeContainer) = true)
    (hser : meta.Series = "" ∨ p meta.Series = true)
    (hst : checkStorageList meta [] meta.Storage = none) : meta.Check p = none := by
  unfold Meta.Check
  rw [hph]
  have c1 : (meta.Subordinate &&
      !(meta.Requires.any fun q => q.2.Scope == ScopeContainer)) = false := by
    rcases hsub with h | h <;> simp [h]
  have c2 : (!(meta.Series == "") && !(p meta.Series)) = false := by
    rcases hser with h | h <;> simp [h]
  simp only [c1, c2, Bool.false_eq_true, ite_false]
  exact hst

/-- When the relation phases pass but the record is subordinate without a
container-scoped requirer, `Meta.Check` returns exactly the subordinate
error. -/
theorem check_subordinate_fail {meta : Meta} {p : String → Bool} {names : List String}
    (hph : relationPhases meta = .ok names) (hsub : meta.Subordinate = true)
    (hany : meta.Requires.any (fun q => q.2.Scope == ScopeContainer) = false) :
    meta.Check p = some ("subordinate charm " ++ goQuote meta.Name ++
      " lacks \"requires\" relation with container scope") := by
  unfold Meta.Check
  rw [hph]
  simp [hsub, hany]

/-- `checkRelationsList` reads only `Name` and `Subordinate` from the
record. -/
theorem checkRelationsList_congr {meta' meta : Meta} {role : String}
    (hN : meta'.Name = meta.Name) (hS : meta'.Subordinate = meta.Subordinate) :
    ∀ (names : List String) (src : List (String × Relation)),
      checkRelationsList meta' role names src = checkRelationsList meta role names src
  | _, [] => rfl
  | names, (name, rel) :: rest => by
    rw [checkRelationsList, checkRelationsList, hN, hS,
      checkRelationsList_congr hN hS (name :: names) rest]

/-- `checkStorageList` reads only `Name` from the record. -/
theorem checkStorageList_congr {meta' meta : Meta} (hN : meta'.Name = meta.Name) :
    ∀ (names : List String) (src : List (String × Storage)),
      checkStorageList meta' names src = checkStorageList meta names src
  | _, [] => rfl
  | names, (name, store) :: rest => by
    rw [checkStorageList, checkStorageList, hN,
      checkStorageList_congr hN (name :: names) rest]

/-- The requirer pass never reads an entry's `Interface`: replacing every
requirer interface leaves the pass unchanged. -/
theorem checkRelationsList_iface_inv {meta : Meta} {f : String → String} :
    ∀ (names : List String) (src : List (String × Relation)),
      checkRelationsList meta RoleRequirer names
        (src.map (fun q => (q.1, { q.2 with Interface := f q.2.Interface }))) =
      checkRelationsList meta RoleRequirer names src
  | _, [] => rfl
  | names, (name, rel) :: rest => by
    obtain ⟨rn, rr, rif, ro, rl, rs⟩ := rel
    rw [List.map_cons]
    rw [checkRelationsList, checkRelationsList]
    simp only [beq_self_eq_true, Bool.not_true, Bool.false_and, Bool.false_eq_true,
      ite_false]
    rw [checkRelationsList_iface_inv (name :: names) rest]

/-- Validation never rejects a requirer entry for its interface: the whole
check is invariant under replacing requirer interfaces. -/
theorem check_iface_inv (meta : Meta) (p : String → Bool) (f : String → String) :
    (setRequiresIfaces f meta).Check p = meta.Check p := by
  have hN : (setRequiresIfaces f meta).Name = meta.Name := rfl
  have hS : (setRequiresIfaces f meta).Subordinate = meta.Subordinate := rfl
  have hprov : checkRelationsList (setRequiresIfaces f meta) RoleProvider []
      (setRequiresIfaces f meta).Provides =
      checkRelationsList meta RoleProvider [] meta.Provides := by
    rw [show (setRequiresIfaces f meta).Provides = meta.Provides from rfl,
      checkRelationsList_congr hN hS]
  have hreq : ∀ names, checkRelationsList (setRequiresIfaces f meta) RoleRequirer names
      (setRequiresIfaces f meta).Requires =
      checkRelationsList meta RoleRequirer names meta.Requires := by
    intro names
    rw [show (setRequiresIfaces f meta).Requires =
        meta.Requires.map (fun q => (q.1, { q.2 with Interface := f q.2.Interface }))
        from rfl,
      checkRelationsList_congr hN hS, checkRelationsList_iface_inv]
  have hpeer : ∀ names, checkRelationsList (setRequiresIfaces f meta) RolePeer names
      (setRequiresIfaces f meta).Peers =
      checkRelationsList meta RolePeer names meta.Peers := by
    intro names
    rw [show (setRequiresIfaces f meta).Peers = meta.Peers from rfl,
      checkRelationsList_congr hN hS]
  have hph : relationPhases (setRequiresIfaces f meta) = relationPhases meta := by
    unfold relationPhases
    rw [hprov]
    cases checkRelationsList meta RoleProvider [] meta.Provides with
    | error e => rfl
    | ok names =>
      dsimp only
      rw [hreq names]
      cases checkRelationsList meta RoleRequirer names meta.Requires with
      | error e => rfl
      | ok names2 =>
        dsimp only
        exact hpeer names2
  have hany : ((setRequiresIfaces f meta).Requires.any
      (fun q => q.2.Scope == ScopeContainer)) =
      (meta.Requires.any fun q => q.2.Scope == ScopeContainer) := by
    rw [show (setRequiresIfaces f meta).Requires =
      meta.Requires.map (fun q => (q.1, { q.2 with Interface := f q.2.Interface }))
      from rfl]
    rw [List.any_map]
    rfl
  unfold Meta.Check
  rw [hph]
  cases relationPhases meta with
  | error e => rfl
  | ok ns =>
    dsimp only
    rw [hany, hN,
      show (setRequiresIfaces f meta).Subordinate = meta.Subordinate from rfl,
      show (setRequiresIfaces f meta).Series = meta.Series from rfl,
      show (setRequiresIfaces f meta).Storage = meta.Storage from rfl,
      checkStorageList_congr hN [] meta.Storage]

/-! ## Lemmas for the decode/encode round trip -/

theorem lookupA_append_of_none {α : Type} {l₁ : List (String × α)} {k : String}
    (h : lookupA l₁ k = none) (l₂ : List (String × α)) :
    lookupA (l₁ ++ l₂) k = lookupA l₂ k := by
  induction l₁ with
  | nil => rfl
  | cons q rest ih =>
    obtain ⟨k', v'⟩ := q
    rw [lookupA] at h
    rw [List.cons_append, lookupA]
    split at h
    · exact Option.noConfusion h
    · next hne => rw [if_neg hne]; exact ih h

theorem lookupA_append_of_some {α : Type} {l₁ : List (String × α)} {k : String}
    {v : α} (h : lookupA l₁ k = some v) (l₂ : List (String × α)) :
    lookupA (l₁ ++ l₂) k = some v := by
  induction l₁ with
  | nil => exact Option.noConfusion h
  | cons q rest ih =>
    obtain ⟨k', v'⟩ := q
    rw [lookupA] at h
    rw [List.cons_append, lookupA]
    split at h
    · next he => rw [if_pos he]; exact h
    · next hne => rw [if_neg hne]; exact ih h

/-- Lookup through a conditional singleton segment of the marshalled
document (`if c then [] else [(key, v)]`). -/
theorem lookupA_seg_skip {α : Type} (c : Prop) [Decidable c] (key : String) (v : α)
    (l₂ : List (String × α)) (k : String) :
    lookupA ((if c then [] else [(key, v)]) ++ l₂) k =
      if ¬c ∧ key = k then some v else lookupA l₂ k := by
  by_cases hc : c
  · simp [hc]
  · rw [if_neg hc, List.cons_append]
    rw [lookupA]
    by_cases hk : key = k
    · rw [if_pos (by simpa using hk), if_pos ⟨hc, hk⟩]
    · rw [if_neg (by simpa using hk), if_neg (by simp [hk]), List.nil_append]

/-- Lookup through a conditional singleton segment of the marshalled
document (`if c then [(key, v)] else []`). -/
theorem lookupA_seg_keep {α : Type} (c : Prop) [Decidable c] (key : String) (v : α)
    (l₂ : List (String × α)) (k : String) :
    lookupA ((if c then [(key, v)] else []) ++ l₂) k =
      if c ∧ key = k then some v else lookupA l₂ k := by
  by_cases hc : c
  · rw [if_pos hc, List.cons_append, lookupA]
    by_cases hk : key = k
    · rw [if_pos (by simpa using hk), if_pos ⟨hc, hk⟩]
    · rw [if_neg (by simpa using hk), if_neg (by simp [hk]), List.nil_append]
  · simp [hc]

theorem mem_insertA {α : Type} {l : List (String × α)} {k : String} {v : α} :
    ∀ {q : String × α}, q ∈ insertA l k v → q = (k, v) ∨ q ∈ l := by
  induction l with
  | nil => intro q hq; simpa [insertA] using hq
  | cons p rest ih =>
    obtain ⟨k', v'⟩ := p
    intro q hq
    rw [insertA] at hq
    split at hq
    · next he =>
      rcases List.mem_cons.1 hq with hq | hq
      · left
        rw [hq]
        congr 1
        simpa using he
      · right; exact List.mem_cons_of_mem _ hq
    · rcases List.mem_cons.1 hq with hq | hq
      · right; rw [hq]; exact List.mem_cons_self _ _
      · rcases ih hq with hq | hq
        · left; exact hq
        · right; exact List.mem_cons_of_mem _ hq

/-- Inserting a fresh key appends. -/
theorem insertA_of_not_mem {α : Type} {l : List (String × α)} {k : String}
    (h : k ∉ l.map Prod.fst) (v : α) : insertA l k v = l ++ [(k, v)] := by
  induction l with
  | nil => rfl
  | cons p rest ih =>
    obtain ⟨k', v'⟩ := p
    rw [List.map_cons] at h
    rw [insertA, if_neg (by simp at h; simpa using Ne.symm (h.1)), List.cons_append,
      ih (by simp at h; simpa using h.2)]

/-- Folding Go map writes of pairwise fresh keys over an association list
reproduces the key/value list itself. -/
theorem foldl_insertA_of_nodup {α : Type} :
    ∀ (rs acc : List (String × α)),
      ((acc ++ rs).map Prod.fst).Nodup →
      rs.foldl (fun acc q => insertA acc q.1 q.2) acc = acc ++ rs
  | [], acc, _ => by simp
  | (k, v) :: rest, acc, hnd => by
    rw [List.foldl_cons]
    have hk : k ∉ acc.map Prod.fst := by
      intro hmem
      rw [List.map_append] at hnd
      rcases List.nodup_append.1 hnd with ⟨_, _, hdisj⟩
      exact hdisj hmem (by simp)
    rw [insertA_of_not_mem hk v, foldl_insertA_of_nodup rest (acc ++ [(k, v)])
      (by simpa using hnd), List.append_assoc]
    rfl

/-- The one-field unfolding of `coerceFields`, stated with explicit
matches. -/
theorem coerceFields_cons (k : String) (c : Checker) (d : FDefault)
    (rest : List (String × Checker × FDefault)) (kvs : List (String × V))
    (path : List String) :
    coerceFields ((k, c, d) :: rest) kvs path =
      match lookupA kvs k with
      | some v =>
        match c v (path ++ [k]) with
        | .error e => .error e
        | .ok w =>
          match coerceFields rest kvs path with
          | .error e => .error e
          | .ok out => .ok ((k, w) :: out)
      | none =>
        match d with
        | .mandatory => .error (pathStr (path ++ [k]) ++ ": expected value, got nothing")
        | .omitted => coerceFields rest kvs path
        | .defVal dv =>
          match coerceFields rest kvs path with
          | .error e => .error e
          | .ok out => .ok ((k, dv) :: out) := rfl

/-- Every key of a `coerceFields` output is a declared field name. -/
theorem coerceFields_keys :
    ∀ {fields : List (String × Checker × FDefault)} {kvs : List (String × V)}
      {path : List String} {out : List (String × V)},
      coerceFields fields kvs path = .ok out →
      ∀ q ∈ out, q.1 ∈ fields.map Prod.fst := by
  intro fields
  induction fields with
  | nil =>
    intro kvs path out h q hq
    rw [coerceFields] at h
    cases h
    simp at hq
  | cons f rest ih =>
    intro kvs path out h q hq
    obtain ⟨k, c, d⟩ := f
    rw [coerceFields_cons] at h
    split at h
    · split at h
      · exact Except.noConfusion h
      · split at h
        · exact Except.noConfusion h
        · next out' hrest =>
          cases h
          rcases List.mem_cons.1 hq with hq | hq
          · rw [hq, List.map_cons]
            exact List.mem_cons_self _ _
          · simp only [List.map_cons]
            exact List.mem_cons_of_mem _ (ih hrest q hq)
    · split at h
      · exact Except.noConfusion h
      · simp only [List.map_cons]
        exact List.mem_cons_of_mem _ (ih h q hq)
      · split at h
        · exact Except.noConfusion h
        · next out' hrest =>
          cases h
          rcases List.mem_cons.1 hq with hq | hq
          · rw [hq, List.map_cons]
            exact List.mem_cons_self _ _
          · simp only [List.map_cons]
            exact List.mem_cons_of_mem _ (ih hrest q hq)

/-- What a successful `coerceFields` run says about one declared field:
its output entry is either absent (omitted and absent from the input),
coerced from the input value by the field's checker, or its default. -/
theorem coerceFields_lookup :
    ∀ {fields : List (String × Checker × FDefault)} {kvs : List (String × V)}
      {path : List String} {out : List (String × V)}
      {k : String} {c : Checker} {d : FDefault},
      coerceFields fields kvs path = .ok out →
      (k, c, d) ∈ fields → (fields.map Prod.fst).Nodup →
      (lookupA out k = none ∧ d = .omitted ∧ lookupA kvs k = none) ∨
      (∃ w, lookupA out k = some w ∧
        ((∃ v, lookupA kvs k = some v ∧ c v (path ++ [k]) = .ok w) ∨
          (d = .defVal w ∧ lookupA kvs k = none))) := by
  intro fields
  induction fields with
  | nil =>
    intro kvs path out k c d _ hmem _
    simp at hmem
  | cons f rest ih =>
    intro kvs path out k c d h hmem hnd
    obtain ⟨k₀, c₀, d₀⟩ := f
    rw [coerceFields_cons] at h
    rcases List.mem_cons.1 hmem with hhd | htl
    · injection hhd with hk hcd
      injection hcd with hc hd
      subst hk hc hd
      split at h
      · next v hv =>
        split at h
        · exact Except.noConfusion h
        · next w hcv =>
          split at h
          · exact Except.noConfusion h
          · next out' hrest =>
            cases h
            exact Or.inr ⟨w, by rw [lookupA, if_pos (by simp)],
              Or.inl ⟨v, hv, hcv⟩⟩
      · next hv =>
        split at h
        · exact Except.noConfusion h
        · left
          refine ⟨?_, rfl, hv⟩
          cases hl : lookupA out k with
          | none => rfl
          | some w =>
            have hkmem := coerceFields_keys h _ (lookupA_mem hl)
            rw [List.map_cons] at hnd
            exact absurd hkmem (List.nodup_cons.1 hnd).1
        · next dv =>
          split at h
          · exact Except.noConfusion h
          · next out' hrest =>
            cases h
            exact Or.inr ⟨dv, by rw [lookupA, if_pos (by simp)],
              Or.inr ⟨rfl, hv⟩⟩
    · have hkne : k₀ ≠ k := by
        rw [List.map_cons] at hnd
        intro he
        refine (List.nodup_cons.1 hnd).1 ?_
        rw [he]
        exact List.mem_map.2 ⟨(k, c, d), htl, rfl⟩
      have hnd' : (rest.map Prod.fst).Nodup := by
        rw [List.map_cons] at hnd
        exact (List.nodup_cons.1 hnd).2
      split at h
      · split at h
        · exact Except.noConfusion h
        · next w hcv =>
          split at h
          · exact Except.noConfusion h
          · next out' hrest =>
            cases h
            have hres := ih hrest htl hnd'
            rwa [show lookupA ((k₀, w) :: out') k = lookupA out' k from by
              rw [lookupA, if_neg (by simpa using hkne)]]
      · split at h
        · exact Except.noConfusion h
        · exact ih h htl hnd'
        · next dv =>
          split at h
          · exact Except.noConfusion h
          · next out' hrest =>
            cases h
            have hres := ih hrest htl hnd'
            rwa [show lookupA ((k₀, dv) :: out') k = lookupA out' k from by
              rw [lookupA, if_neg (by simpa using hkne)]]

/-- A scalar-equality success is a real equality. -/
theorem vEqScalar_eq : ∀ {v a : V}, vEqScalar v a = true → v = a := by
  intro v a h
  cases v <;> cases a <;> simp_all [vEqScalar]

/-- A successful `Const` coercion returns the constant. -/
theorem constC_ok {x v : V} {path : List String} {w : V}
    (h : constC x v path = .ok w) : w = x := by
  rw [constC] at h
  split at h
  · next hsc =>
    cases h
    exact vEqScalar_eq hsc
  · exact Except.noConfusion h

/-- A `OneOf` of two `Const` checkers returns one of the two constants. -/
theorem oneOf_const2 {a b : V} {v : V} {path : List String} {w : V}
    (h : oneOf [constC a, constC b] v path = .ok w) : w = a ∨ w = b := by
  have h1 : oneOf [constC a, constC b] v path =
      (match constC a v path with
       | .ok w1 => .ok w1
       | .error _ => constC b v path) := rfl
  rw [h1] at h
  cases hca : constC a v path with
  | ok w1 =>
    simp only [hca] at h
    injection h with h2
    exact Or.inl (h2 ▸ constC_ok hca)
  | error e =>
    simp only [hca] at h
    exact Or.inr (constC_ok h)

/-- The per-element content of a successful `mapME` traversal. -/
theorem mapME_mem {α β : Type} {f : α → Except String β} :
    ∀ {xs : List α} {ys : List β}, mapME f xs = .ok ys →
      ∀ y ∈ ys, ∃ x ∈ xs, f x = .ok y := by
  intro xs
  induction xs with
  | nil =>
    intro ys h y hy
    rw [mapME] at h
    cases h
    simp at hy
  | cons x rest ih =>
    intro ys h y hy
    rw [mapME] at h
    split at h
    · exact Except.noConfusion h
    · next z hz =>
      cases hrest : mapME f rest with
      | error e => rw [hrest] at h; exact Except.noConfusion h
      | ok zs =>
        rw [hrest] at h
        cases h
        rcases List.mem_cons.1 hy with hy | hy
        · exact ⟨x, List.mem_cons_self _ _, hy ▸ hz⟩
        · obtain ⟨x', hx', hfx'⟩ := ih hrest y hy
          exact ⟨x', List.mem_cons_of_mem _ hx', hfx'⟩

/-- A successful `StringMap` coercion maps a map to a map, and every
output value is an output of the element checker. -/
theorem stringMapC_ok_values {c : Checker} {v : V} {path : List String} {w : V}
    (h : stringMapC c v path = .ok w) :
    ∃ kvs out, v = .map kvs ∧ w = .map out ∧
      ∀ q ∈ out, ∃ x px, c x px = .ok q.2 := by
  cases v with
  | map kvs =>
    rw [stringMapC] at h
    cases hm : mapME (fun p => (c p.2 (path ++ [p.1])).map (fun w => (p.1, w))) kvs with
    | error e => rw [hm] at h; exact Except.noConfusion h
    | ok out =>
      rw [hm] at h
      cases h
      refine ⟨kvs, out, rfl, rfl, ?_⟩
      intro q hq
      obtain ⟨x, _, hfx⟩ := mapME_mem hm q hq
      cases hcx : c x.2 (path ++ [x.1]) with
      | error e => rw [hcx] at hfx; exact Except.noConfusion hfx
      | ok w' =>
        rw [hcx] at hfx
        cases hfx
        exact ⟨x.2, path ++ [x.1], hcx⟩
  | null => exact Except.noConfusion h
  | bool b => exact Except.noConfusion h
  | int n => exact Except.noConfusion h
  | str s => exact Except.noConfusion h
  | list xs => exact Except.noConfusion h
  | pair m n => exact Except.noConfusion h

/-- The scope entry of every value the relation-shorthand expander
produces is the global or the container constant. -/
theorem ifaceExpCoerce_scope {lim v : V} {path : List String} {w : V}
    (h : ifaceExpCoerce lim v path = .ok w) :
    ∃ m, w = .map m ∧ (lookupA m "scope" = some (.str ScopeGlobal) ∨
      lookupA m "scope" = some (.str ScopeContainer)) := by
  cases v with
  | str s =>
    rw [ifaceExpCoerce] at h
    cases h
    exact ⟨_, rfl, Or.inl rfl⟩
  | map kvs =>
    rw [ifaceExpCoerce] at h
    generalize hg : (if (lookupA kvs "limit").isSome then kvs
      else insertA kvs "limit" lim) = kvs2 at h
    rw [fieldMapC] at h
    split at h
    · cases hcf : coerceFields ifaceFields kvs2 path with
      | error e =>
        rw [hcf] at h
        exact Except.noConfusion h
      | ok out =>
        rw [hcf] at h
        have hmape : Except.map V.map (.ok out : Except String (List (String × V))) = Except.ok (V.map out) := rfl
        rw [hmape] at h
        injection h with h2
        subst h2
        refine ⟨out, rfl, ?_⟩
        have hmem : ("scope",
            oneOf [constC (.str ScopeGlobal), constC (.str ScopeContainer)],
            FDefault.defVal (.str ScopeGlobal)) ∈ ifaceFields := by
          unfold ifaceFields
          exact List.mem_cons_of_mem _ (List.mem_cons_of_mem _ (List.mem_cons_self _ _))
        have hnd : (ifaceFields.map Prod.fst).Nodup := by
          unfold ifaceFields
          simp
        rcases coerceFields_lookup hcf hmem hnd with ⟨_, hcontra, _⟩ | ⟨w', hl, hw'⟩
        · exact FDefault.noConfusion hcontra
        · rcases hw' with ⟨v', _, hco⟩ | ⟨hdef, _⟩
          · rcases oneOf_const2 hco with hw | hw
            · exact Or.inl (hw ▸ hl)
            · exact Or.inr (hw ▸ hl)
          · injection hdef with hdv
            exact Or.inl (hdv ▸ hl)
    · exact Except.noConfusion h
  | null => exact Except.noConfusion h
  | bool b => exact Except.noConfusion h
  | int n => exact Except.noConfusion h
  | list xs => exact Except.noConfusion h
  | pair m n => exact Except.noConfusion h

/-- What a parsed relation inherits from its key, its mapping's role and
its coerced scope entry. -/
theorem parseRelationEntry_wf {role k : String} {w : V} {r : Relation}
    (h : parseRelationEntry role k w = some r)
    (hsc : ∃ m, w = .map m ∧ (lookupA m "scope" = some (.str ScopeGlobal) ∨
      lookupA m "scope" = some (.str ScopeContainer))) :
    r.Name = k ∧ r.Role = role ∧
      (r.Scope = ScopeGlobal ∨ r.Scope = ScopeContainer) := by
  obtain ⟨m, hw, hsc⟩ := hsc
  subst hw
  rw [parseRelationEntry] at h
  split at h <;> try exact Option.noConfusion h
  split at h <;> try exact Option.noConfusion h
  rcases hsc with hsc | hsc
  · have hms : mGet m "scope" = .str ScopeGlobal := by rw [mGet, hsc]; rfl
    simp only [hms] at h
    rw [parseRelLimit] at h
    split at h <;> try exact Option.noConfusion h
    · injection h with h2
      subst h2
      exact ⟨rfl, rfl, Or.inl rfl⟩
    · injection h with h2
      subst h2
      exact ⟨rfl, rfl, Or.inl rfl⟩
  · have hms : mGet m "scope" = .str ScopeContainer := by rw [mGet, hsc]; rfl
    simp only [hms] at h
    rw [parseRelLimit] at h
    split at h <;> try exact Option.noConfusion h
    · injection h with h2
      subst h2
      exact ⟨rfl, rfl, Or.inr rfl⟩
    · injection h with h2
      subst h2
      exact ⟨rfl, rfl, Or.inr rfl⟩

/-- Relations produced by the `parseRelations` loop carry any property
established per entry and already holding of the accumulator. -/
theorem parseRelFold_wf {role : String} {P : String × Relation → Prop} :
    ∀ {kvs : List (String × V)} {acc l : List (String × Relation)},
      parseRelFold role acc kvs = some l →
      (∀ q ∈ acc, P q) →
      (∀ (k : String) (w : V) (r : Relation), (k, w) ∈ kvs →
        parseRelationEntry role k w = some r → P (k, r)) →
      ∀ q ∈ l, P q := by
  intro kvs
  induction kvs with
  | nil =>
    intro acc l h hacc _ q hq
    rw [parseRelFold] at h
    cases h
    exact hacc q hq
  | cons p rest ih =>
    intro acc l h hacc hstep q hq
    obtain ⟨k, w⟩ := p
    rw [parseRelFold] at h
    split at h
    · exact Option.noConfusion h
    · next r hr =>
      refine ih h ?_
        (fun k' w' r' hm hp => hstep k' w' r' (List.mem_cons_of_mem _ hm) hp) q hq
      intro q' hq'
      rcases mem_insertA hq' with hq' | hq'
      · exact hq' ▸ hstep k w r (List.mem_cons_self _ _) hr
      · exact hacc q' hq'

/-- Round trip of one provider relation: encoding it (collapsed or full)
and expanding the result through `ifaceExpC` with the provider's `nil`
limit default re-parses to the original relation. -/
theorem relation_rt_provider (path : List String) (k : String) (r : Relation)
    (hname : r.Name = k) (hrole : r.Role = RoleProvider)
    (hscope : r.Scope = ScopeGlobal ∨ r.Scope = ScopeContainer) :
    ∃ w, ifaceExpCoerce V.null (marshaledRelationGetYAML r) path = .ok w ∧
      parseRelationEntry RoleProvider k w = some r := by
  obtain ⟨nm, ro, ifc, opt, lim, sc⟩ := r
  dsimp only at hname hrole hscope
  subst hname hrole
  rcases hscope with hsc | hsc <;> subst hsc <;> cases opt <;>
    cases hlb : (lim == (0 : Int))
  all_goals try (have hleq : lim = (0 : Int) := by simpa using hlb)
  all_goals try (subst hleq)
  all_goals simp only [marshaledRelationGetYAML, hlb, beq_self_eq_true,
    Bool.not_true, Bool.not_false, Bool.true_and, Bool.false_and, Bool.and_true,
    Bool.and_false, Bool.and_self, if_true, if_false, Bool.true_eq_false,
    Bool.false_eq_true, ite_true, ite_false]
  all_goals exact ⟨_, rfl, rfl⟩

/-- Round trip of one requirer or peer relation through `ifaceExpC` with
the `1` limit default. -/
theorem relation_rt_nonprovider (role : String)
    (hnp : (role == RoleProvider) = false) (path : List String) (k : String)
    (r : Relation) (hname : r.Name = k) (hrole : r.Role = role)
    (hscope : r.Scope = ScopeGlobal ∨ r.Scope = ScopeContainer) :
    ∃ w, ifaceExpCoerce (V.int 1) (marshaledRelationGetYAML r) path = .ok w ∧
      parseRelationEntry role k w = some r := by
  obtain ⟨nm, ro, ifc, opt, lim, sc⟩ := r
  dsimp only at hname hrole hscope
  subst hname hrole
  rcases hscope with hsc | hsc <;> subst hsc <;> cases opt <;>
    cases hlb : (lim == (1 : Int))
  all_goals try (have hleq : lim = (1 : Int) := by simpa using hlb)
  all_goals try (subst hleq)
  all_goals simp only [marshaledRelationGetYAML, hnp, hlb, beq_self_eq_true,
    Bool.not_true, Bool.not_false, Bool.true_and, Bool.false_and, Bool.and_true,
    Bool.and_false, Bool.and_self, if_true, if_false, Bool.true_eq_false,
    Bool.false_eq_true, ite_true, ite_false]
  all_goals exact ⟨_, rfl, rfl⟩

/-- Round trip of a whole relation mapping through the element checker of
the charm schema, with the parse loop folded over an arbitrary
accumulator. -/
theorem relations_rt_aux {role : String} {lim : V}
    (hrel : ∀ (path : List String) (k : String) (r : Relation), r.Name = k →
      r.Role = role → (r.Scope = ScopeGlobal ∨ r.Scope = ScopeContainer) →
      ∃ w, ifaceExpCoerce lim (marshaledRelationGetYAML r) path = .ok w ∧
        parseRelationEntry role k w = some r) :
    ∀ (rs : List (String × Relation)) (path : List String),
      (∀ q ∈ rs, q.2.Name = q.1 ∧ q.2.Role = role ∧
        (q.2.Scope = ScopeGlobal ∨ q.2.Scope = ScopeContainer)) →
      ∃ out, mapME (fun p => (ifaceExpCoerce lim p.2 (path ++ [p.1])).map
          (fun w => (p.1, w))) (relationsGetYAML rs) = .ok out ∧
        ∀ acc, parseRelFold role acc out =
          some (rs.foldl (fun acc q => insertA acc q.1 q.2) acc) := by
  intro rs
  induction rs with
  | nil =>
    intro path _
    exact ⟨[], rfl, fun acc => rfl⟩
  | cons q rest ih =>
    intro path hwf
    obtain ⟨k, r⟩ := q
    obtain ⟨h1, h2, h3⟩ := hwf _ (List.mem_cons_self _ _)
    dsimp only at h1 h2 h3
    obtain ⟨w, hco, hpa⟩ := hrel (path ++ [k]) k r h1 h2 h3
    obtain ⟨out', hmap, hfold⟩ := ih path
      (fun q hq => hwf q (List.mem_cons_of_mem _ hq))
    refine ⟨(k, w) :: out', ?_, ?_⟩
    · show mapME _ ((k, marshaledRelationGetYAML r) :: relationsGetYAML rest) = _
      rw [mapME]
      simp only [Except.map] at hmap ⊢
      simp only [hco]
      rw [hmap]
    · intro acc
      rw [parseRelFold]
      simp only [hpa, List.foldl_cons]
      exact hfold (insertA acc k r)

/-- Round trip of a whole relation mapping with duplicate-free keys:
`StringMap(ifaceExpander)` over the marshalled mapping succeeds and the
parse loop returns exactly the original mapping. -/
theorem relations_rt {role : String} {lim : V}
    (hrel : ∀ (path : List String) (k : String) (r : Relation), r.Name = k →
      r.Role = role → (r.Scope = ScopeGlobal ∨ r.Scope = ScopeContainer) →
      ∃ w, ifaceExpCoerce lim (marshaledRelationGetYAML r) path = .ok w ∧
        parseRelationEntry role k w = some r)
    (rs : List (String × Relation)) (path : List String)
    (hwf : ∀ q ∈ rs, q.2.Name = q.1 ∧ q.2.Role = role ∧
      (q.2.Scope = ScopeGlobal ∨ q.2.Scope = ScopeContainer))
    (hnd : (rs.map Prod.fst).Nodup) :
    ∃ out, stringMapC (ifaceExpCoerce lim) (.map (relationsGetYAML rs)) path =
        .ok (.map out) ∧
      parseRelations (.map out) role = some rs := by
  obtain ⟨out, hmap, hfold⟩ := relations_rt_aux hrel rs path hwf
  refine ⟨out, ?_, ?_⟩
  · rw [stringMapC, hmap]
    rfl
  · show parseRelFold role [] out = some rs
    rw [hfold []]
    congr 1
    have := foldl_insertA_of_nodup rs [] (by simpa using hnd)
    simpa using this

/-- `schema.List(schema.String)` accepts a list of strings unchanged. -/
theorem mapME_str (path : List String) :
    ∀ l : List String,
      mapME (fun x => stringC x path) (l.map .str) = .ok (l.map .str)
  | [] => rfl
  | x :: xs => by
    have ih := mapME_str path xs
    have hs : stringC (V.str x) path = Except.ok (V.str x) := rfl
    simp only [List.map_cons, mapME, hs, ih]
    rfl

/-- `schema.List(schema.String)` round trip on the encoder's string
lists. -/
theorem listC_str_rt (l : List String) (path : List String) :
    listC stringC (.list (l.map .str)) path = .ok (.list (l.map .str)) := by
  show Except.map V.list (mapME (fun x => stringC x path) (l.map V.str)) =
    Except.ok (V.list (l.map V.str))
  rw [mapME_str]
  rfl

/-- `parseStringList` round trip on the encoder's string lists. -/
theorem mapMO_str :
    ∀ l : List String,
      mapMO (fun e => match e with | V.str s => some s | _ => none)
        (l.map .str) = some l
  | [] => rfl
  | x :: xs => by
    rw [List.map_cons, mapMO]
    show (match (some x : Option String) with
      | none => none
      | some y => (mapMO (fun e => match e with | V.str s => some s | _ => none)
          (xs.map .str)).map (fun ys => y :: ys)) = _
    rw [mapMO_str xs]
    rfl

/-- `parseStringList` recovers the string list the encoder emitted. -/
theorem parseStringList_strs (l : List String) :
    parseStringList (.list (l.map .str)) = some l := by
  rw [parseStringList]
  exact mapMO_str l

/-- Dissection of a successful `FieldMap` coercion returning a map. -/
theorem fieldMapC_ok_map {fields : List (String × Checker × FDefault)} {v : V}
    {path : List String} {out : List (String × V)}
    (h : fieldMapC fields v path = .ok (.map out)) :
    ∃ kvs, v = .map kvs ∧ coerceFields fields kvs path = .ok out := by
  cases v with
  | map kvs =>
    rw [fieldMapC] at h
    split at h
    · cases hcf : coerceFields fields kvs path with
      | error e => rw [hcf] at h; exact Except.noConfusion h
      | ok out0 =>
        rw [hcf] at h
        have hm : Except.map V.map
            (.ok out0 : Except String (List (String × V))) = .ok (V.map out0) := rfl
        rw [hm] at h
        injection h with h2
        injection h2 with h3
        exact ⟨kvs, rfl, h3 ▸ hcf⟩
    · exact Except.noConfusion h
  | null => exact Except.noConfusion h
  | bool b => exact Except.noConfusion h
  | int n => exact Except.noConfusion h
  | str s => exact Except.noConfusion h
  | list xs => exact Except.noConfusion h
  | pair a b => exact Except.noConfusion h

/-- Dissection of a successful `ReadMeta` run into its three phases:
schema coercion, typed extraction, validation. -/
theorem readMeta_parts {p : String → Bool} {doc : V} {R : Meta}
    (h : readMeta p doc = .ok R) :
    ∃ m0, charmSchemaCoerce doc [] = .ok (.map m0) ∧ extractMeta m0 = some R ∧
      R.Check p = none := by
  cases hcs : charmSchemaCoerce doc [] with
  | error e =>
    simp only [readMeta, hcs] at h
    exact Except.noConfusion h
  | ok w =>
    cases w with
    | null =>
      simp only [readMeta, hcs] at h
      exact Except.noConfusion h
    | bool b =>
      simp only [readMeta, hcs] at h
      exact Except.noConfusion h
    | int n =>
      simp only [readMeta, hcs] at h
      exact Except.noConfusion h
    | str s =>
      simp only [readMeta, hcs] at h
      exact Except.noConfusion h
    | list xs =>
      simp only [readMeta, hcs] at h
      exact Except.noConfusion h
    | pair a b =>
      simp only [readMeta, hcs] at h
      exact Except.noConfusion h
    | map m0 =>
      cases hext : extractMeta m0 with
      | none =>
        simp only [readMeta, hcs, hext] at h
        exact Except.noConfusion h
      | some meta =>
        cases hchk : meta.Check p with
        | some e =>
          simp only [readMeta, hcs, hext, hchk] at h
          exact Except.noConfusion h
        | none =>
          simp only [readMeta, hcs, hext, hchk] at h
          injection h with h2
          subst h2
          exact ⟨m0, rfl, hext, hchk⟩

/-- The relation-mapping equations a successful typed extraction
satisfies. -/
theorem extractMeta_parts {m0 : List (String × V)} {R : Meta}
    (h : extractMeta m0 = some R) :
    parseRelations (mGet m0 "provides") RoleProvider = some R.Provides ∧
    parseRelations (mGet m0 "requires") RoleRequirer = some R.Requires ∧
    parseRelations (mGet m0 "peers") RolePeer = some R.Peers := by
  unfold extractMeta at h
  iterate 13 (split at h <;> try exact Option.noConfusion h)
  injection h with h2
  subst h2
  refine ⟨?_, ?_, ?_⟩ <;> assumption

/-- Well-formedness of the relations a parse-loop run produces, given the
scope facts of the coerced entries. -/
theorem parseRelFold_wf_scope {role : String} {outW : List (String × V)}
    {rs : List (String × Relation)}
    (hp : parseRelFold role [] outW = some rs)
    (hsc : ∀ q ∈ outW, ∃ m, q.2 = .map m ∧
      (lookupA m "scope" = some (.str ScopeGlobal) ∨
        lookupA m "scope" = some (.str ScopeContainer))) :
    ∀ q ∈ rs, q.2.Name = q.1 ∧ q.2.Role = role ∧
      (q.2.Scope = ScopeGlobal ∨ q.2.Scope = ScopeContainer) :=
  parseRelFold_wf hp (by simp)
    (fun k w r hm hpe => parseRelationEntry_wf hpe (hsc (k, w) hm))

/-- Well-formedness of one decoded relation mapping: every relation
carries its key as name, its mapping's role, and a global or container
scope. -/
theorem decode_mapping_wf {kvs0 m0 : List (String × V)} {key role : String}
    {lim : V} {rs : List (String × Relation)}
    (hcf : coerceFields charmFields kvs0 [] = .ok m0)
    (hmem : (key, stringMapC (ifaceExpCoerce lim), FDefault.omitted) ∈ charmFields)
    (hp : parseRelations (mGet m0 key) role = some rs) :
    ∀ q ∈ rs, q.2.Name = q.1 ∧ q.2.Role = role ∧
      (q.2.Scope = ScopeGlobal ∨ q.2.Scope = ScopeContainer) := by
  rcases coerceFields_lookup hcf hmem (by decide) with ⟨habs, _, _⟩ | ⟨w, hl, hw⟩
  · rw [mGet, habs] at hp
    simp only [Option.getD_none] at hp
    have hp2 : (some [] : Option (List (String × Relation))) = some rs := hp
    injection hp2 with h2
    subst h2
    intro q hq
    simp at hq
  · rcases hw with ⟨v, hlv, hsm⟩ | ⟨hdef, _⟩
    · obtain ⟨kvsW, outW, hveq, hweq, hvals⟩ := stringMapC_ok_values hsm
      subst hweq
      rw [mGet, hl] at hp
      simp only [Option.getD_some] at hp
      have hp2 : parseRelFold role [] outW = some rs := hp
      refine parseRelFold_wf_scope hp2 ?_
      intro q hq
      obtain ⟨x, px, hco⟩ := hvals q hq
      exact ifaceExpCoerce_scope hco
    · exact FDefault.noConfusion hdef

/-- The key lists of the three relation mappings of a validated record are
each duplicate-free. -/
theorem check_mapping_nodups {meta : Meta} {p : String → Bool}
    (h : meta.Check p = none) :
    (meta.Provides.map Prod.fst).Nodup ∧ (meta.Requires.map Prod.fst).Nodup ∧
      (meta.Peers.map Prod.fst).Nodup := by
  have hnd := check_keys_nodup h
  exact ⟨hnd.of_append_left.of_append_left, hnd.of_append_left.of_append_right,
    hnd.of_append_right⟩

/-- One `coerceFields` step on a field present in the input. -/
theorem coerceFields_step_present {kvs : List (String × V)} {k : String}
    {c : Checker} {d : FDefault} {path : List String} {v w : V}
    (rest : List (String × Checker × FDefault))
    (hl : lookupA kvs k = some v) (hc : c v (path ++ [k]) = .ok w) :
    coerceFields ((k, c, d) :: rest) kvs path =
      (coerceFields rest kvs path).map (fun out => (k, w) :: out) := by
  rw [coerceFields_cons]
  simp only [hl, hc]
  cases coerceFields rest kvs path <;> rfl

/-- One `coerceFields` step on an omitted field absent from the input. -/
theorem coerceFields_step_absent_omitted {kvs : List (String × V)} {k : String}
    {c : Checker} {path : List String}
    (rest : List (String × Checker × FDefault))
    (hl : lookupA kvs k = none) :
    coerceFields ((k, c, .omitted) :: rest) kvs path =
      coerceFields rest kvs path := by
  rw [coerceFields_cons]
  simp only [hl]

/-- One `coerceFields` step on a defaulted field absent from the input. -/
theorem coerceFields_step_absent_default {kvs : List (String × V)} {k : String}
    {c : Checker} {path : List String} {dv : V}
    (rest : List (String × Checker × FDefault))
    (hl : lookupA kvs k = none) :
    coerceFields ((k, c, .defVal dv) :: rest) kvs path =
      (coerceFields rest kvs path).map (fun out => (k, dv) :: out) := by
  rw [coerceFields_cons]
  simp only [hl]
  cases coerceFields rest kvs path <;> rfl

/-- One `coerceFields` step on a present field whose checker fails. -/
theorem coerceFields_step_error {kvs : List (String × V)} {k : String}
    {c : Checker} {d : FDefault} {path : List String} {v : V} {e : String}
    (rest : List (String × Checker × FDefault))
    (hl : lookupA kvs k = some v) (hc : c v (path ++ [k]) = .error e) :
    coerceFields ((k, c, d) :: rest) kvs path = .error e := by
  rw [coerceFields_cons]
  simp only [hl, hc]

/-- One `coerceFields` step on an omitted field conditionally present in
the input (the shape of the encoder's `omitempty` fields). -/
theorem coerceFields_step_opt {kvs : List (String × V)} {k : String}
    {c : Checker} {path : List String} {v w : V} (cnd : Prop) [Decidable cnd]
    (rest : List (String × Checker × FDefault))
    (hl : lookupA kvs k = if cnd then some v else none)
    (hc : cnd → c v (path ++ [k]) = .ok w) :
    coerceFields ((k, c, .omitted) :: rest) kvs path =
      (coerceFields rest kvs path).map
        (fun out => (if cnd then [(k, w)] else []) ++ out) := by
  by_cases hcnd : cnd
  · rw [if_pos hcnd] at hl
    rw [coerceFields_step_present rest hl (hc hcnd)]
    cases coerceFields rest kvs path <;> simp [Except.map, hcnd]
  · rw [if_neg hcnd] at hl
    rw [coerceFields_step_absent_omitted rest hl]
    cases coerceFields rest kvs path <;> simp [Except.map, hcnd]

/-- Lookup in a bare trailing conditional segment. -/
theorem lookupA_seg_skip_last {α : Type} (c : Prop) [Decidable c] (key : String)
    (v : α) (k : String) :
    lookupA (if c then ([] : List (String × α)) else [(key, v)]) k =
      if ¬c ∧ key = k then some v else none := by
  rw [← List.append_nil (if c then ([] : List (String × α)) else [(key, v)]),
    lookupA_seg_skip]
  rfl

/-- `name` lookup in the marshalled document. -/
theorem entries_lookup_name (R : Meta) :
    lookupA (metaGetYAMLentries R) "name" = some (.str R.Name) := by
  unfold metaGetYAMLentries
  simp only [lookupA, lookupA_seg_skip, lookupA_seg_keep, lookupA_seg_skip_last]
  simp

/-- `summary` lookup in the marshalled document. -/
theorem entries_lookup_summary (R : Meta) :
    lookupA (metaGetYAMLentries R) "summary" = some (.str R.Summary) := by
  unfold metaGetYAMLentries
  simp only [lookupA, lookupA_seg_skip, lookupA_seg_keep, lookupA_seg_skip_last]
  simp

/-- `description` lookup in the marshalled document. -/
theorem entries_lookup_description (R : Meta) :
    lookupA (metaGetYAMLentries R) "description" = some (.str R.Description) := by
  unfold metaGetYAMLentries
  simp only [lookupA, lookupA_seg_skip, lookupA_seg_keep, lookupA_seg_skip_last]
  simp

/-- `provides` lookup in the marshalled document. -/
theorem entries_lookup_provides (R : Meta) :
    lookupA (metaGetYAMLentries R) "provides" =
      if R.Provides.isEmpty = false then
        some (.map (relationsGetYAML R.Provides)) else none := by
  unfold metaGetYAMLentries
  simp only [lookupA, lookupA_seg_skip, lookupA_seg_keep, lookupA_seg_skip_last]
  by_cases hc : R.Provides.isEmpty <;> simp [hc]

/-- `requires` lookup in the marshalled document. -/
theorem entries_lookup_requires (R : Meta) :
    lookupA (metaGetYAMLentries R) "requires" =
      if R.Requires.isEmpty = false then
        some (.map (relationsGetYAML R.Requires)) else none := by
  unfold metaGetYAMLentries
  simp only [lookupA, lookupA_seg_skip, lookupA_seg_keep, lookupA_seg_skip_last]
  by_cases hc : R.Requires.isEmpty <;> simp [hc]

/-- `peers` lookup in the marshalled document. -/
theorem entries_lookup_peers (R : Meta) :
    lookupA (metaGetYAMLentries R) "peers" =
      if R.Peers.isEmpty = false then
        some (.map (relationsGetYAML R.Peers)) else none := by
  unfold metaGetYAMLentries
  simp only [lookupA, lookupA_seg_skip, lookupA_seg_keep, lookupA_seg_skip_last]
  by_cases hc : R.Peers.isEmpty <;> simp [hc]

/-- `categories` lookup in the marshalled document. -/
theorem entries_lookup_categories (R : Meta) :
    lookupA (metaGetYAMLentries R) "categories" =
      if R.Categories.isEmpty = false then
        some (.list (R.Categories.map .str)) else none := by
  unfold metaGetYAMLentries
  simp only [lookupA, lookupA_seg_skip, lookupA_seg_keep, lookupA_seg_skip_last]
  by_cases hc : R.Categories.isEmpty <;> simp [hc]

/-- `tags` lookup in the marshalled document. -/
theorem entries_lookup_tags (R : Meta) :
    lookupA (metaGetYAMLentries R) "tags" =
      if R.Tags.isEmpty = false then
        some (.list (R.Tags.map .str)) else none := by
  unfold metaGetYAMLentries
  simp only [lookupA, lookupA_seg_skip, lookupA_seg_keep, lookupA_seg_skip_last]
  by_cases hc : R.Tags.isEmpty <;> simp [hc]

/-- `subordinate` lookup in the marshalled document. -/
theorem entries_lookup_subordinate (R : Meta) :
    lookupA (metaGetYAMLentries R) "subordinate" =
      if R.Subordinate = true then some (.bool true) else none := by
  unfold metaGetYAMLentries
  simp only [lookupA, lookupA_seg_skip, lookupA_seg_keep, lookupA_seg_skip_last]
  by_cases hc : R.Subordinate <;> simp [hc]

/-- `series` lookup in the marshalled document. -/
theorem entries_lookup_series (R : Meta) :
    lookupA (metaGetYAMLentries R) "series" =
      if (R.Series == "") = false then some (.str R.Series) else none := by
  unfold metaGetYAMLentries
  simp only [lookupA, lookupA_seg_skip, lookupA_seg_keep, lookupA_seg_skip_last]
  by_cases hc : R.Series == "" <;> simp [hc]

/-- `revision` is never emitted by the encoder. -/
theorem entries_lookup_revision (R : Meta) :
    lookupA (metaGetYAMLentries R) "revision" = none := by
  unfold metaGetYAMLentries
  simp only [lookupA, lookupA_seg_skip, lookupA_seg_keep, lookupA_seg_skip_last]
  simp

/-- `format` is never emitted by the encoder. -/
theorem entries_lookup_format (R : Meta) :
    lookupA (metaGetYAMLentries R) "format" = none := by
  unfold metaGetYAMLentries
  simp only [lookupA, lookupA_seg_skip, lookupA_seg_keep, lookupA_seg_skip_last]
  simp

/-- `storage` is never emitted by the encoder. -/
theorem entries_lookup_storage (R : Meta) :
    lookupA (metaGetYAMLentries R) "storage" = none := by
  unfold metaGetYAMLentries
  simp only [lookupA, lookupA_seg_skip, lookupA_seg_keep, lookupA_seg_skip_last]
  simp

/-- Every key of the marshalled document is a declared `charmSchema`
field. -/
theorem metaGetYAMLentries_known (R : Meta) :
    (metaGetYAMLentries R).all
      (fun p => charmFields.any (fun f => f.1 == p.1)) = true := by
  rw [List.all_eq_true]
  intro p hp
  rw [metaGetYAMLentries] at hp
  simp only [List.mem_cons, List.mem_append] at hp
  rcases hp with rfl | rfl | rfl | hp | hp | hp | hp | hp | hp | hp
  · rfl
  · rfl
  · rfl
  all_goals
    split at hp <;>
      first
        | exact absurd hp (List.not_mem_nil _)
        | (rw [List.mem_singleton] at hp; subst hp; rfl)

/-- `name` in the coerced document. -/
theorem encoded_mGet_name (R : Meta) (outPr outRq outPe : List (String × V)) :
    mGet (charmEncodedCoerced R outPr outRq outPe) "name" = .str R.Name := by
  rw [mGet]
  unfold charmEncodedCoerced
  simp only [lookupA, lookupA_seg_skip, lookupA_seg_keep, lookupA_seg_skip_last]
  simp

/-- `summary` in the coerced document. -/
theorem encoded_mGet_summary (R : Meta) (outPr outRq outPe : List (String × V)) :
    mGet (charmEncodedCoerced R outPr outRq outPe) "summary" = .str R.Summary := by
  rw [mGet]
  unfold charmEncodedCoerced
  simp only [lookupA, lookupA_seg_skip, lookupA_seg_keep, lookupA_seg_skip_last]
  simp

/-- `description` in the coerced document. -/
theorem encoded_mGet_description (R : Meta)
    (outPr outRq outPe : List (String × V)) :
    mGet (charmEncodedCoerced R outPr outRq outPe) "description" =
      .str R.Description := by
  rw [mGet]
  unfold charmEncodedCoerced
  simp only [lookupA, lookupA_seg_skip, lookupA_seg_keep, lookupA_seg_skip_last]
  simp

/-- `provides` in the coerced document. -/
theorem encoded_mGet_provides (R : Meta) (outPr outRq outPe : List (String × V)) :
    mGet (charmEncodedCoerced R outPr outRq outPe) "provides" =
      if R.Provides.isEmpty = false then .map outPr else .null := by
  rw [mGet]
  unfold charmEncodedCoerced
  simp only [lookupA, lookupA_seg_skip, lookupA_seg_keep, lookupA_seg_skip_last]
  by_cases hc : R.Provides.isEmpty <;> simp [hc]

/-- `requires` in the coerced document. -/
theorem encoded_mGet_requires (R : Meta) (outPr outRq outPe : List (String × V)) :
    mGet (charmEncodedCoerced R outPr outRq outPe) "requires" =
      if R.Requires.isEmpty = false then .map outRq else .null := by
  rw [mGet]
  unfold charmEncodedCoerced
  simp only [lookupA, lookupA_seg_skip, lookupA_seg_keep, lookupA_seg_skip_last]
  by_cases hc : R.Requires.isEmpty <;> simp [hc]

/-- `peers` in the coerced document. -/
theorem encoded_mGet_peers (R : Meta) (outPr outRq outPe : List (String × V)) :
    mGet (charmEncodedCoerced R outPr outRq outPe) "peers" =
      if R.Peers.isEmpty = false then .map outPe else .null := by
  rw [mGet]
  unfold charmEncodedCoerced
  simp only [lookupA, lookupA_seg_skip, lookupA_seg_keep, lookupA_seg_skip_last]
  by_cases hc : R.Peers.isEmpty <;> simp [hc]

/-- `format` in the coerced document carries the filled default. -/
theorem encoded_mGet_format (R : Meta) (outPr outRq outPe : List (String × V)) :
    mGet (charmEncodedCoerced R outPr outRq outPe) "format" = .int 1 := by
  rw [mGet]
  unfold charmEncodedCoerced
  simp only [lookupA, lookupA_seg_skip, lookupA_seg_keep, lookupA_seg_skip_last]
  simp

/-- `categories` in the coerced document. -/
theorem encoded_mGet_categories (R : Meta)
    (outPr outRq outPe : List (String × V)) :
    mGet (charmEncodedCoerced R outPr outRq outPe) "categories" =
      if R.Categories.isEmpty = false then
        .list (R.Categories.map .str) else .null := by
  rw [mGet]
  unfold charmEncodedCoerced
  simp only [lookupA, lookupA_seg_skip, lookupA_seg_keep, lookupA_seg_skip_last]
  by_cases hc : R.Categories.isEmpty <;> simp [hc]

/-- `tags` in the coerced document. -/
theorem encoded_mGet_tags (R : Meta) (outPr outRq outPe : List (String × V)) :
    mGet (charmEncodedCoerced R outPr outRq outPe) "tags" =
      if R.Tags.isEmpty = false then .list (R.Tags.map .str) else .null := by
  rw [mGet]
  unfold charmEncodedCoerced
  simp only [lookupA, lookupA_seg_skip, lookupA_seg_keep, lookupA_seg_skip_last]
  by_cases hc : R.Tags.isEmpty <;> simp [hc]

/-- `subordinate` in the coerced document. -/
theorem encoded_mGet_subordinate (R : Meta)
    (outPr outRq outPe : List (String × V)) :
    mGet (charmEncodedCoerced R outPr outRq outPe) "subordinate" =
      if R.Subordinate = true then .bool true else .null := by
  rw [mGet]
  unfold charmEncodedCoerced
  simp only [lookupA, lookupA_seg_skip, lookupA_seg_keep, lookupA_seg_skip_last]
  by_cases hc : R.Subordinate <;> simp [hc]

/-- `series` in the coerced document (at the `lookupA` level, as the
extraction reads it). -/
theorem encoded_lookup_series (R : Meta) (outPr outRq outPe : List (String × V)) :
    lookupA (charmEncodedCoerced R outPr outRq outPe) "series" =
      if (R.Series == "") = false then some (.str R.Series) else none := by
  unfold charmEncodedCoerced
  simp only [lookupA, lookupA_seg_skip, lookupA_seg_keep, lookupA_seg_skip_last]
  by_cases hc : R.Series == "" <;> simp [hc]

/-- `revision` is absent from the coerced document. -/
theorem encoded_mGet_revision (R : Meta) (outPr outRq outPe : List (String × V)) :
    mGet (charmEncodedCoerced R outPr outRq outPe) "revision" = .null := by
  rw [mGet]
  unfold charmEncodedCoerced
  simp only [lookupA, lookupA_seg_skip, lookupA_seg_keep, lookupA_seg_skip_last]
  simp

/-- `storage` is absent from the coerced document. -/
theorem encoded_mGet_storage (R : Meta) (outPr outRq outPe : List (String × V)) :
    mGet (charmEncodedCoerced R outPr outRq outPe) "storage" = .null := by
  rw [mGet]
  unfold charmEncodedCoerced
  simp only [lookupA, lookupA_seg_skip, lookupA_seg_keep, lookupA_seg_skip_last]
  simp

/-- The full `coerceFields` computation on the marshalled document: given
the three relation mappings coerce successfully, the result is
`charmEncodedCoerced`. -/
theorem coerce_charm_encoded (R : Meta) {outPr outRq outPe : List (String × V)}
    (hPr : stringMapC (ifaceExpCoerce .null)
      (.map (relationsGetYAML R.Provides)) ([] ++ ["provides"]) = .ok (.map outPr))
    (hRq : stringMapC (ifaceExpCoerce (.int 1))
      (.map (relationsGetYAML R.Requires)) ([] ++ ["requires"]) = .ok (.map outRq))
    (hPe : stringMapC (ifaceExpCoerce (.int 1))
      (.map (relationsGetYAML R.Peers)) ([] ++ ["peers"]) = .ok (.map outPe)) :
    coerceFields charmFields (metaGetYAMLentries R) [] =
      .ok (charmEncodedCoerced R outPr outRq outPe) := by
  unfold charmFields
  rw [coerceFields_step_present _ (entries_lookup_name R) rfl,
    coerceFields_step_present _ (entries_lookup_summary R) rfl,
    coerceFields_step_present _ (entries_lookup_description R) rfl,
    coerceFields_step_opt _ _ (entries_lookup_peers R) (fun _ => hPe),
    coerceFields_step_opt _ _ (entries_lookup_provides R) (fun _ => hPr),
    coerceFields_step_opt _ _ (entries_lookup_requires R) (fun _ => hRq),
    coerceFields_step_absent_omitted _ (entries_lookup_revision R),
    coerceFields_step_absent_default _ (entries_lookup_format R),
    coerceFields_step_opt _ _ (entries_lookup_subordinate R) (fun _ => rfl),
    coerceFields_step_opt _ _ (entries_lookup_categories R)
      (fun _ => listC_str_rt _ _),
    coerceFields_step_opt _ _ (entries_lookup_tags R) (fun _ => listC_str_rt _ _),
    coerceFields_step_opt _ _ (entries_lookup_series R) (fun _ => rfl),
    coerceFields_step_absent_omitted _ (entries_lookup_storage R)]
  rw [coerceFields]
  simp only [Except.map]
  rfl

/-- Typed extraction recovers the original record from the coerced
marshalled document, provided its non-marshalled fields are at their
decoder defaults. -/
theorem extractMeta_encoded (R : Meta) {outPr outRq outPe : List (String × V)}
    (hf : R.Format = 1) (hr : R.OldRevision = 0) (hs : R.Storage = [])
    (hPpr : R.Provides.isEmpty = false →
      parseRelations (.map outPr) RoleProvider = some R.Provides)
    (hPrq : R.Requires.isEmpty = false →
      parseRelations (.map outRq) RoleRequirer = some R.Requires)
    (hPpe : R.Peers.isEmpty = false →
      parseRelations (.map outPe) RolePeer = some R.Peers) :
    extractMeta (charmEncodedCoerced R outPr outRq outPe) = some R := by
  have hpr : parseRelations
      (mGet (charmEncodedCoerced R outPr outRq outPe) "provides") RoleProvider =
      some R.Provides := by
    rw [encoded_mGet_provides]
    by_cases hc : R.Provides.isEmpty
    · rw [if_neg (by simp [hc]), show R.Provides = [] from by simpa using hc]
      rfl
    · rw [if_pos (by simpa using hc)]
      exact hPpr (by simpa using hc)
  have hrq : parseRelations
      (mGet (charmEncodedCoerced R outPr outRq outPe) "requires") RoleRequirer =
      some R.Requires := by
    rw [encoded_mGet_requires]
    by_cases hc : R.Requires.isEmpty
    · rw [if_neg (by simp [hc]), show R.Requires = [] from by simpa using hc]
      rfl
    · rw [if_pos (by simpa using hc)]
      exact hPrq (by simpa using hc)
  have hpe : parseRelations
      (mGet (charmEncodedCoerced R outPr outRq outPe) "peers") RolePeer =
      some R.Peers := by
    rw [encoded_mGet_peers]
    by_cases hc : R.Peers.isEmpty
    · rw [if_neg (by simp [hc]), show R.Peers = [] from by simpa using hc]
      rfl
    · rw [if_pos (by simpa using hc)]
      exact hPpe (by simpa using hc)
  have hfmt : mGet (charmEncodedCoerced R outPr outRq outPe) "format" =
      .int R.Format := by
    rw [encoded_mGet_format, hf]
  have hcat : parseStringList
      (mGet (charmEncodedCoerced R outPr outRq outPe) "categories") =
      some R.Categories := by
    rw [encoded_mGet_categories]
    by_cases hc : R.Categories.isEmpty
    · rw [if_neg (by simp [hc]), show R.Categories = [] from by simpa using hc]
      rfl
    · rw [if_pos (by simpa using hc)]
      exact parseStringList_strs _
  have htag : parseStringList
      (mGet (charmEncodedCoerced R outPr outRq outPe) "tags") =
      some R.Tags := by
    rw [encoded_mGet_tags]
    by_cases hc : R.Tags.isEmpty
    · rw [if_neg (by simp [hc]), show R.Tags = [] from by simpa using hc]
      rfl
    · rw [if_pos (by simpa using hc)]
      exact parseStringList_strs _
  have hsub : extractSubordinate
      (mGet (charmEncodedCoerced R outPr outRq outPe) "subordinate") =
      some R.Subordinate := by
    rw [encoded_mGet_subordinate]
    by_cases hc : R.Subordinate <;> simp [hc, extractSubordinate]
  have hrev : extractOldRevision
      (mGet (charmEncodedCoerced R outPr outRq outPe) "revision") =
      some R.OldRevision := by
    rw [encoded_mGet_revision, hr]
    rfl
  have hser : extractSeries
      (lookupA (charmEncodedCoerced R outPr outRq outPe) "series") =
      some R.Series := by
    rw [encoded_lookup_series]
    by_cases hc : R.Series == ""
    · have hc2 : R.Series = "" := by simpa using hc
      simp [hc2, extractSeries]
    · simp [hc, extractSeries]
  have hsto : parseStorage
      (mGet (charmEncodedCoerced R outPr outRq outPe) "storage") =
      some R.Storage := by
    rw [encoded_mGet_storage, hs]
    rfl
  unfold extractMeta
  simp only [encoded_mGet_name, encoded_mGet_summary, encoded_mGet_description,
    hpr, hrq, hpe, hfmt, hcat, htag, hsub, hrev, hser, hsto]

/-- Any non-positive bare integer count is rejected by the full decode
pipeline with the invalid-count schema error. -/
theorem storageCount_nonpos (m : Int) (hm : m ≤ 0) :
    readMeta (fun _ => true) (storageDoc [("count", .int m)]) =
      .error ("metadata: datacount: invalid count " ++ toString m) := by
  have hcc : storageCountCoerce (V.int m)
      ((([] ++ ["storage"]) ++ ["data"]) ++ ["count"]) =
      .error ("datacount: invalid count " ++ toString m) := by
    have e1 : storageCountCoerce (V.int m)
        ((([] ++ ["storage"]) ++ ["data"]) ++ ["count"]) =
        if m ≤ 0 then
          .error (pathStr (((([] ++ ["storage"]) ++ ["data"]) ++ ["count"]).drop 1)
            ++ ": invalid count " ++ toString m)
        else .ok (.pair (-1) m) := rfl
    rw [e1, if_pos hm]
    rfl
  have hsf : coerceFields storageFields
      [("type", V.str "block"), ("count", V.int m)]
      (([] ++ ["storage"]) ++ ["data"]) =
      .error ("datacount: invalid count " ++ toString m) := by
    have hl1 : lookupA [("type", V.str "block"), ("count", V.int m)] "required" =
      none := rfl
    have hl2 : lookupA [("type", V.str "block"), ("count", V.int m)] "shared" =
      none := rfl
    have hl3 : lookupA [("type", V.str "block"), ("count", V.int m)] "read-only" =
      none := rfl
    have hl4 : lookupA [("type", V.str "block"), ("count", V.int m)] "persistent" =
      none := rfl
    have hl5 : lookupA [("type", V.str "block"), ("count", V.int m)] "count" =
      some (V.int m) := rfl
    unfold storageFields
    rw [coerceFields_step_absent_default _ hl1, coerceFields_step_absent_default _ hl2,
      coerceFields_step_absent_default _ hl3, coerceFields_step_absent_default _ hl4,
      coerceFields_step_error _ hl5 hcc]
    rfl
  have hfm : fieldMapC storageFields
      (V.map [("type", V.str "block"), ("count", V.int m)])
      (([] ++ ["storage"]) ++ ["data"]) =
      .error ("datacount: invalid count " ++ toString m) := by
    have e2 : fieldMapC storageFields
        (V.map [("type", V.str "block"), ("count", V.int m)])
        (([] ++ ["storage"]) ++ ["data"]) =
        if [("type", V.str "block"), ("count", V.int m)].all
            (fun p => storageFields.any (fun f => f.1 == p.1)) then
          Except.map V.map (coerceFields storageFields
            [("type", V.str "block"), ("count", V.int m)]
            (([] ++ ["storage"]) ++ ["data"]))
        else .error (pathStr (([] ++ ["storage"]) ++ ["data"]) ++
          ": unknown field") := rfl
    have hcnd : ([("type", V.str "block"), ("count", V.int m)].all
        (fun p => storageFields.any (fun f => f.1 == p.1))) = true := rfl
    rw [e2, if_pos hcnd, hsf]
    rfl
  have hme : mapME (fun p => Except.map (fun w => (p.1, w))
      (fieldMapC storageFields p.2 (([] ++ ["storage"]) ++ [p.1])))
      [("data", V.map [("type", V.str "block"), ("count", V.int m)])] =
      .error ("datacount: invalid count " ++ toString m) := by
    rw [mapME]
    simp only [hfm, Except.map]
  have hsm : stringMapC (fieldMapC storageFields)
      (V.map [("data", V.map [("type", V.str "block"), ("count", V.int m)])])
      ([] ++ ["storage"]) =
      .error ("datacount: invalid count " ++ toString m) := by
    have e3 : stringMapC (fieldMapC storageFields)
        (V.map [("data", V.map [("type", V.str "block"), ("count", V.int m)])])
        ([] ++ ["storage"]) =
        Except.map V.map (mapME (fun p => Except.map (fun w => (p.1, w))
          (fieldMapC storageFields p.2 (([] ++ ["storage"]) ++ [p.1])))
          [("data", V.map [("type", V.str "block"), ("count", V.int m)])]) := rfl
    rw [e3, hme]
    rfl
  have hch : coerceFields charmFields
      [("name", V.str "test"), ("summary", V.str "s"), ("description", V.str "d"),
        ("storage", V.map [("data",
          V.map [("type", V.str "block"), ("count", V.int m)])])] [] =
      .error ("datacount: invalid count " ++ toString m) := by
    have hk1 : lookupA [("name", V.str "test"), ("summary", V.str "s"),
        ("description", V.str "d"), ("storage", V.map [("data",
          V.map [("type", V.str "block"), ("count", V.int m)])])] "name" =
      some (V.str "test") := rfl
    have hk2 : lookupA [("name", V.str "test"), ("summary", V.str "s"),
        ("description", V.str "d"), ("storage", V.map [("data",
          V.map [("type", V.str "block"), ("count", V.int m)])])] "summary" =
      some (V.str "s") := rfl
    have hk3 : lookupA [("name", V.str "test"), ("summary", V.str "s"),
        ("description", V.str "d"), ("storage", V.map [("data",
          V.map [("type", V.str "block"), ("count", V.int m)])])] "description" =
      some (V.str "d") := rfl
    have hk4 : lookupA [("name", V.str "test"), ("summary", V.str "s"),
        ("description", V.str "d"), ("storage", V.map [("data",
          V.map [("type", V.str "block"), ("count", V.int m)])])] "peers" =
      none := rfl
    have hk5 : lookupA [("name", V.str "test"), ("summary", V.str "s"),
        ("description", V.str "d"), ("storage", V.map [("data",
          V.map [("type", V.str "block"), ("count", V.int m)])])] "provides" =
      none := rfl
    have hk6 : lookupA [("name", V.str "test"), ("summary", V.str "s"),
        ("description", V.str "d"), ("storage", V.map [("data",
          V.map [("type", V.str "block"), ("count", V.int m)])])] "requires" =
      none := rfl
    have hk7 : lookupA [("name", V.str "test"), ("summary", V.str "s"),
        ("description", V.str "d"), ("storage", V.map [("data",
          V.map [("type", V.str "block"), ("count", V.int m)])])] "revision" =
      none := rfl
    have hk8 : lookupA [("name", V.str "test"), ("summary", V.str "s"),
        ("description", V.str "d"), ("storage", V.map [("data",
          V.map [("type", V.str "block"), ("count", V.int m)])])] "format" =
      none := rfl
    have hk9 : lookupA [("name", V.str "test"), ("summary", V.str "s"),
        ("description", V.str "d"), ("storage", V.map [("data",
          V.map [("type", V.str "block"), ("count", V.int m)])])] "subordinate" =
      none := rfl
    have hk10 : lookupA [("name", V.str "test"), ("summary", V.str "s"),
        ("description", V.str "d"), ("storage", V.map [("data",
          V.map [("type", V.str "block"), ("count", V.int m)])])] "categories" =
      none := rfl
    have hk11 : lookupA [("name", V.str "test"), ("summary", V.str "s"),
        ("description", V.str "d"), ("storage", V.map [("data",
          V.map [("type", V.str "block"), ("count", V.int m)])])] "tags" =
      none := rfl
    have hk12 : lookupA [("name", V.str "test"), ("summary", V.str "s"),
        ("description", V.str "d"), ("storage", V.map [("data",
          V.map [("type", V.str "block"), ("count", V.int m)])])] "series" =
      none := rfl
    have hk13 : lookupA [("name", V.str "test"), ("summary", V.str "s"),
        ("description", V.str "d"), ("storage", V.map [("data",
          V.map [("type", V.str "block"), ("count", V.int m)])])] "storage" =
      some (V.map [("data",
        V.map [("type", V.str "block"), ("count", V.int m)])]) := rfl
    unfold charmFields
    rw [coerceFields_step_present _ hk1 rfl, coerceFields_step_present _ hk2 rfl,
      coerceFields_step_present _ hk3 rfl, coerceFields_step_absent_omitted _ hk4,
      coerceFields_step_absent_omitted _ hk5,
      coerceFields_step_absent_omitted _ hk6,
      coerceFields_step_absent_omitted _ hk7,
      coerceFields_step_absent_default _ hk8,
      coerceFields_step_absent_omitted _ hk9,
      coerceFields_step_absent_omitted _ hk10,
      coerceFields_step_absent_omitted _ hk11,
      coerceFields_step_absent_omitted _ hk12,
      coerceFields_step_error _ hk13 hsm]
    rfl
  have hcsc : charmSchemaCoerce (storageDoc [("count", .int m)]) [] =
      .error ("datacount: invalid count " ++ toString m) := by
    have e5 : charmSchemaCoerce (storageDoc [("count", .int m)]) [] =
        if [("name", V.str "test"), ("summary", V.str "s"),
            ("description", V.str "d"), ("storage", V.map [("data",
              V.map [("type", V.str "block"), ("count", V.int m)])])].all
            (fun p => charmFields.any (fun f => f.1 == p.1)) then
          Except.map V.map (coerceFields charmFields
            [("name", V.str "test"), ("summary", V.str "s"),
              ("description", V.str "d"), ("storage", V.map [("data",
                V.map [("type", V.str "block"), ("count", V.int m)])])] [])
        else .error (pathStr [] ++ ": unknown field") := rfl
    have hcnd2 : ([("name", V.str "test"), ("summary", V.str "s"),
        ("description", V.str "d"), ("storage", V.map [("data",
          V.map [("type", V.str "block"), ("count", V.int m)])])].all
        (fun p => charmFields.any (fun f => f.1 == p.1))) = true := rfl
    rw [e5, if_pos hcnd2, hch]
    rfl
  simp only [readMeta, hcsc]
  rw [← String.append_assoc]
  rfl

/-! ## Claim theorems -/

/-- **C2 counterexample**: `IsImplicit` does *not* bypass the reserved-name
check in `Meta.Check`: the implicit relation (`juju-info`/`juju-info`/
provider) placed in the provides mapping of a non-subordinate record is
rejected with precisely the reserved-relation-name error. -/
theorem implicit_reserved_counterexample :
    Relation.IsImplicit relImplicit = true ∧
    metaImplicitProvides.Subordinate = false ∧
    Meta.Check metaImplicitProvides (fun _ => true) =
      some "charm \"test\" using a reserved relation name: \"juju-info\"" :=
  ⟨rfl, rfl, rfl⟩

/-- **C2 (amended)**: a relation satisfying `IsImplicit` is rejected by
`Meta.Check` wherever it appears — in provides the reserved-name check
fires (the provider role can never meet the subordinate/requirer/container
exemption), and in requires or peers the role-mismatch check fires;
`IsImplicit` confers no bypass inside `Meta.Check` (its special treatment
lives in `Relation.ImplementedBy`). -/
theorem implicit_not_bypassed (meta : Meta) (p : String → Bool) (k : String)
    (r : Relation) (himp : r.IsImplicit = true)
    (hmem : (k, r) ∈ meta.Provides ∨ (k, r) ∈ meta.Requires ∨ (k, r) ∈ meta.Peers) :
    meta.Check p ≠ none := by
  intro hchk
  obtain ⟨ns, hph⟩ := check_relationPhases hchk
  obtain ⟨n1, n2, hc1, hc2, hc3⟩ := relationPhases_parts hph
  have himp' := himp
  unfold Relation.IsImplicit at himp'
  simp only [Bool.and_eq_true, beq_iff_eq] at himp'
  obtain ⟨⟨hnm, hin⟩, hrl⟩ := himp'
  rcases hmem with hmem | hmem | hmem
  · obtain ⟨hname, hrole, hres, _⟩ := checkRelationsList_entry hc1 _ hmem
    dsimp only at hname hres
    rcases hres with ⟨_, hcontra, _⟩ | hres
    · exact absurd hcontra (by decide)
    · have hk : k = "juju-info" := by rw [← hname]; exact hnm
      rw [hk] at hres
      exact absurd hres (by decide)
  · obtain ⟨_, hrole, _, _⟩ := checkRelationsList_entry hc2 _ hmem
    dsimp only at hrole
    rw [hrl] at hrole
    exact absurd hrole (by decide)
  · obtain ⟨_, hrole, _, _⟩ := checkRelationsList_entry hc3 _ hmem
    dsimp only at hrole
    rw [hrl] at hrole
    exact absurd hrole (by decide)

/-- Witness for `implicit_not_bypassed` at a concrete record. -/
theorem implicit_not_bypassed_witness :
    Relation.IsImplicit relImplicit = true ∧
    Meta.Check metaImplicitProvides (fun _ => true) ≠ none :=
  ⟨by decide,
    implicit_not_bypassed metaImplicitProvides (fun _ => true) "juju-info" relImplicit
      (by decide) (Or.inl (by decide))⟩

/-- **C3**: the storage count coercion and its resolution against
`required`: `"2-4"` gives (2,4); `"5-"` gives (5,-1); bare `5` gives (5,5)
when required and (0,5) when not; bare `0` — and, universally, every
integer `m ≤ 0` — is a schema error; `"abc"` is a schema error; an absent
count resolves like bare `1` — (1,1) when required, (0,1) when not. -/
theorem storage_count_cases :
    (readMeta (fun _ => true) (storageDoc [("count", .str "2-4")])).map storageCounts
        = .ok (some (2, 4)) ∧
    (readMeta (fun _ => true) (storageDoc [("count", .str "5-")])).map storageCounts
        = .ok (some (5, -1)) ∧
    (readMeta (fun _ => true)
        (storageDoc [("count", .int 5), ("required", .bool true)])).map storageCounts
        = .ok (some (5, 5)) ∧
    (readMeta (fun _ => true) (storageDoc [("count", .int 5)])).map storageCounts
        = .ok (some (0, 5)) ∧
    readMeta (fun _ => true) (storageDoc [("count", .int 0)])
        = .error "metadata: datacount: invalid count 0" ∧
    (∀ m : Int, m ≤ 0 → readMeta (fun _ => true) (storageDoc [("count", .int m)])
        = .error ("metadata: datacount: invalid count " ++ toString m)) ∧
    readMeta (fun _ => true) (storageDoc [("count", .str "abc")])
        = .error "metadata: datacount: value \"abc\" does not match m, m-n, or m-" ∧
    (readMeta (fun _ => true) (storageDoc [("required", .bool true)])).map storageCounts
        = .ok (some (1, 1)) ∧
    (readMeta (fun _ => true) (storageDoc [])).map storageCounts = .ok (some (0, 1)) :=
  ⟨rfl, rfl, rfl, rfl, rfl, storageCount_nonpos, rfl, rfl, rfl⟩

/-- Witness for the universally quantified conjunct of
`storage_count_cases` at the concrete count `-3`. -/
theorem storage_count_cases_witness :
    (-3 : Int) ≤ 0 ∧
    readMeta (fun _ => true) (storageDoc [("count", .int (-3))])
        = .error ("metadata: datacount: invalid count " ++ toString (-3 : Int)) :=
  ⟨by decide, storage_count_cases.2.2.2.2.2.1 (-3) (by decide)⟩

/-- **C9**: `Meta.Hooks` stores only `true` values, contains every unit
hook name, and contains `N-H` for every relation name `N` of the three
mappings and every relation hook name `H` of the hooks collaborator. -/
theorem hooks_spec (m : Meta) (unitHooks relationHooks : List String) :
    (∀ q ∈ m.Hooks unitHooks relationHooks, q.2 = true) ∧
    (∀ h ∈ unitHooks, lookupA (m.Hooks unitHooks relationHooks) h = some true) ∧
    (∀ N, (N ∈ m.Provides.map Prod.fst ∨ N ∈ m.Requires.map Prod.fst ∨
        N ∈ m.Peers.map Prod.fst) →
      ∀ H ∈ relationHooks,
        lookupA (m.Hooks unitHooks relationHooks) (N ++ "-" ++ H) = some true) := by
  unfold Meta.Hooks
  refine ⟨?_, ?_, ?_⟩
  · exact relFold_values (relFold_values (relFold_values
      (foldl_preserve (fun (b : List (String × Bool)) => ∀ q ∈ b, q.2 = true) _
        (fun b a hb => insertA_true_values hb) unitHooks [] (by simp))))
  · intro h hh
    exact relFold_preserve (relFold_preserve (relFold_preserve
      (foldl_insertA_true_new (fun y => y) unitHooks [] h hh)))
  · intro N hN H hH
    rcases hN with hN | hN | hN
    · exact relFold_preserve (relFold_preserve (relFold_new m.Provides _ hN hH))
    · exact relFold_preserve (relFold_new m.Requires _ hN hH)
    · exact relFold_new m.Peers _ hN hH

/-- Witness for `hooks_spec` at a concrete record and hook tables. -/
theorem hooks_spec_witness :
    lookupA (metaShorthand.Hooks ["install"] ["joined"]) "install" = some true ∧
    lookupA (metaShorthand.Hooks ["install"] ["joined"]) "server-joined" = some true :=
  ⟨(hooks_spec metaShorthand ["install"] ["joined"]).2.1 "install" (by decide),
    (hooks_spec metaShorthand ["install"] ["joined"]).2.2 "server"
      (Or.inl (by decide)) "joined" (by decide)⟩

/-- **C10**: a relation satisfying `IsImplicit` is implemented by every
charm: `ImplementedBy` returns `true` without inspecting the charm. -/
theorem implicit_implementedBy (r : Relation) (ch : Meta)
    (h : r.IsImplicit = true) : r.ImplementedBy ch = some true := by
  simp [Relation.ImplementedBy, h]

/-- Witness for `implicit_implementedBy` at a concrete relation/charm. -/
theorem implicit_implementedBy_witness :
    Relation.IsImplicit relImplicit = true ∧
    Relation.ImplementedBy relImplicit emptyMeta = some true :=
  ⟨by decide, implicit_implementedBy relImplicit emptyMeta (by decide)⟩

/-- **C7**: relation shorthand — `provides: {server: "mysql"}` decodes to
interface `"mysql"`, the provider default limit (unbounded, represented as
`0`), `optional=false` and global scope; the encoder collapses a relation
back to the bare interface string exactly when `optional=false`, the scope
is global and the limit equals the role default (`0`/unbounded for
provider, `1` for requirer and peer); re-encoding the decoded example
yields the original shorthand document. -/
theorem relation_shorthand :
    readMeta (fun _ => true) docShorthand = .ok metaShorthand ∧
    metaShorthand.Provides = [("server", relServer)] ∧
    relServer.Interface = "mysql" ∧ relServer.Limit = 0 ∧
    relServer.Optional = false ∧ relServer.Scope = ScopeGlobal ∧
    marshaledRelationGetYAML relServer = .str "mysql" ∧
    Meta.GetYAML metaShorthand = docShorthand ∧
    (∀ r : Relation,
      (r.Role = RoleProvider ∨ r.Role = RoleRequirer ∨ r.Role = RolePeer) →
      ((∃ s, marshaledRelationGetYAML r = .str s) ↔
        (r.Optional = false ∧ r.Scope = ScopeGlobal ∧
          r.Limit = (if r.Role = RoleProvider then 0 else 1)))) := by
  refine ⟨rfl, rfl, rfl, rfl, rfl, rfl, rfl, rfl, ?_⟩
  intro r _
  have hnl : (if r.Role == RoleProvider then (0 : Int) else 1) =
      (if r.Role = RoleProvider then (0 : Int) else 1) := by
    by_cases hp : r.Role = RoleProvider <;> simp [hp]
  unfold marshaledRelationGetYAML
  dsimp only
  rw [hnl]
  by_cases hcond : (!r.Optional &&
      (r.Limit == if r.Role = RoleProvider then (0 : Int) else 1) &&
      (r.Scope == ScopeGlobal)) = true
  · rw [if_pos hcond]
    refine iff_of_true ⟨r.Interface, rfl⟩ ?_
    simp only [Bool.and_eq_true, Bool.not_eq_true', beq_iff_eq] at hcond
    exact ⟨hcond.1.1, hcond.2, hcond.1.2⟩
  · rw [if_neg hcond]
    refine iff_of_false ?_ ?_
    · rintro ⟨s, hs⟩
      cases hs
    · rintro ⟨ho, hs, hl⟩
      exact hcond (by simp [ho, hs, hl])

/-- Witness for `relation_shorthand` at the concrete example relation. -/
theorem relation_shorthand_witness :
    ∃ s, marshaledRelationGetYAML relServer = .str s :=
  ((relation_shorthand).2.2.2.2.2.2.2.2 relServer (Or.inl rfl)).mpr
    ⟨rfl, rfl, by decide⟩

/-- **C5**: the subordinate rule — a subordinate record passes validation
only if some requires entry has container scope; when the relation phases
pass but no requires entry is container-scoped, validation fails with the
error mentioning container scope; and with a container-scoped requirer
(and the remaining phases fine) validation succeeds. -/
theorem subordinate_container_rule :
    (∀ (meta : Meta) (p : String → Bool), meta.Subordinate = true →
      meta.Check p = none →
      meta.Requires.any (fun q => q.2.Scope == ScopeContainer) = true) ∧
    (∀ (meta : Meta) (p : String → Bool) (names : List String),
      meta.Subordinate = true → relationPhases meta = .ok names →
      meta.Requires.any (fun q => q.2.Scope == ScopeContainer) = false →
      meta.Check p = some (("subordinate charm " ++ goQuote meta.Name ++
        " lacks \"requires\" relation with ") ++ "container scope")) ∧
    (∀ (meta : Meta) (p : String → Bool) (names : List String),
      meta.Subordinate = true → relationPhases meta = .ok names →
      meta.Requires.any (fun q => q.2.Scope == ScopeContainer) = true →
      (meta.Series = "" ∨ p meta.Series = true) →
      checkStorageList meta [] meta.Storage = none →
      meta.Check p = none) := by
  refine ⟨?_, ?_, ?_⟩
  · intro meta p hsub hchk
    cases hany : meta.Requires.any (fun q => q.2.Scope == ScopeContainer) with
    | true => rfl
    | false =>
      obtain ⟨ns, hph⟩ := check_relationPhases hchk
      rw [check_subordinate_fail hph hsub hany] at hchk
      exact Option.noConfusion hchk
  · intro meta p names hsub hph hany
    rw [check_subordinate_fail hph hsub hany]
    simp only [String.append_assoc]
    rfl
  · intro meta p names _ hph hany hser hst
    exact check_eq_none_of hph (Or.inr hany) hser hst

/-- Witness for `subordinate_container_rule` at concrete records. -/
theorem subordinate_container_rule_witness :
    metaSubReserved.Requires.any (fun q => q.2.Scope == ScopeContainer) = true ∧
    Meta.Check metaSubNoContainer (fun _ => true) =
      some (("subordinate charm " ++ goQuote "test" ++
        " lacks \"requires\" relation with ") ++ "container scope") ∧
    Meta.Check metaSubReserved (fun _ => true) = none :=
  ⟨(subordinate_container_rule).1 metaSubReserved (fun _ => true) (by decide) rfl,
    (subordinate_container_rule).2.1 metaSubNoContainer (fun _ => true) []
      (by decide) rfl (by decide),
    (subordinate_container_rule).2.2 metaSubReserved (fun _ => true) ["juju-foo"]
      (by decide) rfl (by decide) (Or.inl rfl) rfl⟩

/-- **C6**: relation names must be unique across the three mappings
combined: any record with a duplicated name fails validation, and the
concrete provides/requires duplicate fails with the duplicate-name
reason. -/
theorem duplicate_names_rejected :
    (∀ (meta : Meta) (p : String → Bool),
      ¬ (meta.Provides.map Prod.fst ++ meta.Requires.map Prod.fst ++
          meta.Peers.map Prod.fst).Nodup →
      meta.Check p ≠ none) ∧
    Meta.Check metaDupName (fun _ => true) =
      some "charm \"test\" using a duplicated relation name: \"server\"" := by
  constructor
  · intro meta p hnd hchk
    exact hnd (check_keys_nodup hchk)
  · rfl

/-- Witness for `duplicate_names_rejected` at the concrete duplicate. -/
theorem duplicate_names_rejected_witness :
    Meta.Check metaDupName (fun _ => true) ≠ none :=
  (duplicate_names_rejected).1 metaDupName (fun _ => true) (by decide)

/-- **C4**: reserved relation names (`juju` or `juju-` prefixed) are
rejected in provides and peers, and in requires unless the record is
subordinate and the relation is container-scoped (the concrete subordinate
requires/container case passes); reserved interfaces are rejected for
provides and peers entries, while the entire validation is invariant under
replacing requirer interfaces (so a reserved requirer interface is never
rejected). -/
theorem reserved_rules :
    (∀ (meta : Meta) (p : String → Bool) (q : String × Relation),
      q ∈ meta.Provides → reservedName q.1 = true → meta.Check p ≠ none) ∧
    (∀ (meta : Meta) (p : String → Bool) (q : String × Relation),
      q ∈ meta.Peers → reservedName q.1 = true → meta.Check p ≠ none) ∧
    (∀ (meta : Meta) (p : String → Bool) (q : String × Relation),
      q ∈ meta.Requires → reservedName q.1 = true →
      ¬(meta.Subordinate = true ∧ q.2.Scope = ScopeContainer) →
      meta.Check p ≠ none) ∧
    Meta.Check metaSubReserved (fun _ => true) = none ∧
    (∀ (meta : Meta) (p : String → Bool) (q : String × Relation),
      q ∈ meta.Provides → reservedName q.2.Interface = true →
      meta.Check p ≠ none) ∧
    (∀ (meta : Meta) (p : String → Bool) (q : String × Relation),
      q ∈ meta.Peers → reservedName q.2.Interface = true → meta.Check p ≠ none) ∧
    (∀ (meta : Meta) (p : String → Bool) (f : String → String),
      (setRequiresIfaces f meta).Check p = meta.Check p) := by
  refine ⟨?_, ?_, ?_, rfl, ?_, ?_, ?_⟩
  · intro meta p q hmem hres hchk
    obtain ⟨ns, hph⟩ := check_relationPhases hchk
    obtain ⟨n1, n2, hc1, _, _⟩ := relationPhases_parts hph
    obtain ⟨_, _, hgate, _⟩ := checkRelationsList_entry hc1 q hmem
    rcases hgate with ⟨_, hcontra, _⟩ | hgate
    · exact absurd hcontra (by decide)
    · rw [hres] at hgate
      exact Bool.noConfusion hgate
  · intro meta p q hmem hres hchk
    obtain ⟨ns, hph⟩ := check_relationPhases hchk
    obtain ⟨n1, n2, _, _, hc3⟩ := relationPhases_parts hph
    obtain ⟨_, _, hgate, _⟩ := checkRelationsList_entry hc3 q hmem
    rcases hgate with ⟨_, hcontra, _⟩ | hgate
    · exact absurd hcontra (by decide)
    · rw [hres] at hgate
      exact Bool.noConfusion hgate
  · intro meta p q hmem hres hexempt hchk
    obtain ⟨ns, hph⟩ := check_relationPhases hchk
    obtain ⟨n1, n2, _, hc2, _⟩ := relationPhases_parts hph
    obtain ⟨_, _, hgate, _⟩ := checkRelationsList_entry hc2 q hmem
    rcases hgate with ⟨hsub, _, hscope⟩ | hgate
    · exact hexempt ⟨hsub, hscope⟩
    · rw [hres] at hgate
      exact Bool.noConfusion hgate
  · intro meta p q hmem hres hchk
    obtain ⟨ns, hph⟩ := check_relationPhases hchk
    obtain ⟨n1, n2, hc1, _, _⟩ := relationPhases_parts hph
    obtain ⟨_, _, _, hiface⟩ := checkRelationsList_entry hc1 q hmem
    rcases hiface with hcontra | hiface
    · exact absurd hcontra (by decide)
    · rw [hres] at hiface
      exact Bool.noConfusion hiface
  · intro meta p q hmem hres hchk
    obtain ⟨ns, hph⟩ := check_relationPhases hchk
    obtain ⟨n1, n2, _, _, hc3⟩ := relationPhases_parts hph
    obtain ⟨_, _, _, hiface⟩ := checkRelationsList_entry hc3 q hmem
    rcases hiface with hcontra | hiface
    · exact absurd hcontra (by decide)
    · rw [hres] at hiface
      exact Bool.noConfusion hiface
  · intro meta p f
    exact check_iface_inv meta p f

/-- Witness for `reserved_rules` at concrete records. -/
theorem reserved_rules_witness :
    Meta.Check metaImplicitProvides (fun _ => true) ≠ none ∧
    Meta.Check (setRequiresIfaces (fun _ => "juju-admin") metaSubReserved)
      (fun _ => true) = Meta.Check metaSubReserved (fun _ => true) :=
  ⟨(reserved_rules).1 metaImplicitProvides (fun _ => true) ("juju-info", relImplicit)
      (by decide) (by decide),
    (reserved_rules).2.2.2.2.2.2 metaSubReserved (fun _ => true)
      (fun _ => "juju-admin")⟩

/-- **C8 counterexample**: the validator tests the filesystem preference
list for *presence* (Go `!= nil`), not non-emptiness: a block storage
entry whose filesystem list is present but empty — with no other listed
condition violated — is still rejected. -/
theorem storage_fs_counterexample :
    storeFsEmpty.Location = "" ∧ storeFsEmpty.Filesystem = some [] ∧
    storeFsEmpty.Type_ = StorageBlock ∧ storeFsEmpty.CountMin = 0 ∧
    storeFsEmpty.CountMax = 1 ∧
    Meta.Check metaFsEmpty (fun _ => true) =
      some "charm \"test\" storage \"data\": filesystem may not be specified for \"type: block\"" :=
  ⟨rfl, rfl, rfl, rfl, rfl, rfl⟩

/-- **C8 (amended)**: for every storage entry, validation fails when the
location is set but the type is not filesystem, when the filesystem
preference list is *present* (non-nil, even if empty) but the type is not
filesystem, when the type is empty, when `countMin < 0`, or when
`countMax` is `0` or below `-1`; when no entry violates these conditions
(and the names are distinct) the storage checks pass.  Concretely, a block
entry with a location fails and the same entry typed filesystem passes. -/
theorem storage_rules :
    (∀ (meta : Meta) (p : String → Bool) (q : String × Storage),
      q ∈ meta.Storage →
      ((q.2.Location ≠ "" ∧ q.2.Type_ ≠ StorageFilesystem) ∨
        (q.2.Filesystem ≠ none ∧ q.2.Type_ ≠ StorageFilesystem) ∨
        q.2.Type_ = "" ∨ q.2.CountMin < 0 ∨ q.2.CountMax = 0 ∨
        q.2.CountMax < -1) →
      meta.Check p ≠ none) ∧
    (∀ meta : Meta,
      (∀ q ∈ meta.Storage,
        (q.2.Location = "" ∨ q.2.Type_ = StorageFilesystem) ∧
        (q.2.Filesystem = none ∨ q.2.Type_ = StorageFilesystem) ∧
        q.2.Type_ ≠ "" ∧ ¬(q.2.CountMin < 0) ∧ q.2.CountMax ≠ 0 ∧
        ¬(q.2.CountMax < -1)) →
      (meta.Storage.map Prod.fst).Nodup →
      checkStorageList meta [] meta.Storage = none) ∧
    Meta.Check metaLocBlock (fun _ => true) ≠ none ∧
    Meta.Check metaLocFs (fun _ => true) = none := by
  refine ⟨?_, ?_, by decide, rfl⟩
  · intro meta p q hmem hbad hchk
    obtain ⟨hl, hf, ht, hmin, hmax0, hmaxneg⟩ :=
      checkStorageList_entry (check_storage_phase hchk) q hmem
    rcases hbad with ⟨h1, h2⟩ | ⟨h1, h2⟩ | h1 | h1 | h1 | h1
    · rcases hl with h | h
      · exact h1 h
      · exact h2 h
    · rcases hf with h | h
      · exact h1 h
      · exact h2 h
    · exact ht h1
    · exact hmin h1
    · exact hmax0 h1
    · exact hmaxneg h1
  · intro meta hall hnd
    exact checkStorageList_ok hall hnd (fun k _ => List.not_mem_nil k)

/-- Witness for `storage_rules` at concrete records. -/
theorem storage_rules_witness :
    Meta.Check metaLocBlock (fun _ => true) ≠ none ∧
    checkStorageList metaLocFs [] metaLocFs.Storage = none :=
  ⟨(storage_rules).1 metaLocBlock (fun _ => true) ("data", storeLocBlock)
      (by decide) (Or.inl ⟨by decide, by decide⟩),
    (storage_rules).2.1 metaLocFs (by decide) (by decide)⟩


/-- **C1 counterexample**: the decode/encode round trip fails for records
whose `Format`, `OldRevision` or `Storage` differ from the decoder
defaults: `docFormat2` decodes to `metaFormat2` (format 2, obsolete
revision 7, one storage entry), but `Meta.GetYAML` emits no `format`,
`revision` or `storage` field, so re-decoding its output yields
`emptyMeta` instead. -/
theorem roundtrip_counterexample :
    readMeta (fun _ => true) docFormat2 = .ok metaFormat2 ∧
      metaFormat2.Format ≠ 1 ∧ metaFormat2.OldRevision ≠ 0 ∧
      metaFormat2.Storage ≠ [] ∧
      readMeta (fun _ => true) (Meta.GetYAML metaFormat2) = .ok emptyMeta ∧
      (Except.ok emptyMeta : Except String Meta) ≠ .ok metaFormat2 :=
  ⟨rfl, by decide, by decide, by decide, rfl,
    fun hcontra => absurd (Except.ok.inj hcontra) (by decide)⟩

/-- **C1** (amended): for every record `R` produced by a successful decode
(`ReadMeta`) whose non-marshalled fields are at the decoder defaults —
`Format = 1`, `OldRevision = 0` and an empty storage mapping — encoding
`R` with `Meta.GetYAML` and decoding the result yields `R` again. -/
theorem roundtrip_of_decode {p : String → Bool} {doc : V} {R : Meta}
    (h : readMeta p doc = .ok R) (hf : R.Format = 1) (hr : R.OldRevision = 0)
    (hs : R.Storage = []) :
    readMeta p (Meta.GetYAML R) = .ok R := by
  obtain ⟨m0, hcs, hext, hchk⟩ := readMeta_parts h
  obtain ⟨hppr, hprq, hppe⟩ := extractMeta_parts hext
  obtain ⟨kvs0, hdoc, hcf⟩ := fieldMapC_ok_map hcs
  have hwfPr := decode_mapping_wf hcf
    (List.mem_cons_of_mem _ (List.mem_cons_of_mem _ (List.mem_cons_of_mem _
      (List.mem_cons_of_mem _ (List.mem_cons_self _ _))))) hppr
  have hwfRq := decode_mapping_wf hcf
    (List.mem_cons_of_mem _ (List.mem_cons_of_mem _ (List.mem_cons_of_mem _
      (List.mem_cons_of_mem _ (List.mem_cons_of_mem _
        (List.mem_cons_self _ _)))))) hprq
  have hwfPe := decode_mapping_wf hcf
    (List.mem_cons_of_mem _ (List.mem_cons_of_mem _ (List.mem_cons_of_mem _
      (List.mem_cons_self _ _)))) hppe
  obtain ⟨hndPr, hndRq, hndPe⟩ := check_mapping_nodups hchk
  obtain ⟨outPr, hsmPr, hparPr⟩ := relations_rt relation_rt_provider R.Provides
    ([] ++ ["provides"]) hwfPr hndPr
  obtain ⟨outRq, hsmRq, hparRq⟩ := relations_rt
    (relation_rt_nonprovider RoleRequirer rfl) R.Requires ([] ++ ["requires"])
    hwfRq hndRq
  obtain ⟨outPe, hsmPe, hparPe⟩ := relations_rt
    (relation_rt_nonprovider RolePeer rfl) R.Peers ([] ++ ["peers"]) hwfPe hndPe
  have hM := coerce_charm_encoded R hsmPr hsmRq hsmPe
  have hext2 := extractMeta_encoded R hf hr hs (fun _ => hparPr)
    (fun _ => hparRq) (fun _ => hparPe)
  have h1 : charmSchemaCoerce (Meta.GetYAML R) [] =
      if (metaGetYAMLentries R).all
        (fun p => charmFields.any (fun f => f.1 == p.1)) then
        Except.map V.map (coerceFields charmFields (metaGetYAMLentries R) [])
      else .error (pathStr [] ++ ": unknown field") := rfl
  have hcoerced : charmSchemaCoerce (Meta.GetYAML R) [] =
      .ok (.map (charmEncodedCoerced R outPr outRq outPe)) := by
    rw [h1, if_pos (metaGetYAMLentries_known R), hM]
    rfl
  simp only [readMeta, hcoerced, hext2, hchk]

/-- Witness for `roundtrip_of_decode`: the shorthand document decodes to
`metaShorthand`, whose format, revision and storage are at the decoder
defaults, and the round trip indeed reproduces it. -/
theorem roundtrip_of_decode_witness :
    readMeta (fun _ => true) docShorthand = .ok metaShorthand ∧
      metaShorthand.Format = 1 ∧ metaShorthand.OldRevision = 0 ∧
      metaShorthand.Storage = [] ∧
      readMeta (fun _ => true) (Meta.GetYAML metaShorthand) = .ok metaShorthand :=
  ⟨rfl, rfl, rfl, rfl,
    @roundtrip_of_decode (fun _ => true) docShorthand metaShorthand rfl rfl rfl rfl⟩

end Charm
